import Mathlib

/-!
# Wordle solver: the scoring and filtering engine

A shallow embedding of `search_util.c` and of the loop of `main` in `solver.c`,
in self-play and with feedback supplied from outside.

* A C `char` is a Lean `Char`; the program only compares characters for
  equality and against the codes `97 .. 122`.
* A vocabulary word is a C string of length five: five characters different
  from NUL, followed by the terminator.
* The vocabulary `char **vocabulary` with its `num_words` slots is a list of
  optional words; `NULL` is `none`.
* `size_t` values are naturals, and the `int` counters that the program itself
  computes (`count`, `num_guesses`, and the scores that `get_guess` derives from
  its own letter counts) are integers: they stay below `5 * num_words`.
  For `score_word` on a table supplied by the caller, `score_word_int` gives the
  32-bit `int` sum, each addition reduced modulo `2^32` into the range of `int`.
* A position argument (`int position`) is a natural number: every call of the
  program passes a loop index.
-/

namespace Wordle

/-- A word of the vocabulary: a C string of length five. -/
structure Word where
  chars : List Char
  len : chars.length = 5
  nonnul : ∀ c ∈ chars, c ≠ Char.ofNat 0

instance : DecidableEq Word := fun a b =>
  if h : a.chars = b.chars then
    isTrue (by cases a; cases b; simp_all)
  else
    isFalse (fun e => h (by rw [e]))

/-- The character `word[j]`. Index 5 is the NUL terminator; the program reads
no index above 5. -/
def Word.get (word : Word) (j : Nat) : Char :=
  word.chars.getD j (Char.ofNat 0)

/-- The vocabulary: `num_words` slots, each `NULL` or a word. -/
abbrev Vocabulary := List (Option Word)

/-- The loop `for (j ...; j < 5; j++) if (word[j] == letter) { ...; break; }`
shared by `score_letter` and `filter_vocabulary_gray`, started at index `j`
with `n` iterations left: it reports whether the guarded statement ran. -/
def scan_letter (word : Word) (letter : Char) (j : Nat) : Nat → Bool
  | 0 => false
  | n + 1 => if word.get j = letter then true else scan_letter word letter (j + 1) n

/-- The function `score_letter` of `search_util.c`. -/
def score_letter (letter : Char) (vocabulary : Vocabulary) : Int :=
  vocabulary.foldl (fun count slot =>
    match slot with
    | none => count
    | some word => if scan_letter word letter 0 5 then count + 1 else count) 0

/-- The word contains the letter at one of its five positions. -/
def Word.has (word : Word) (letter : Char) : Prop :=
  ∃ j, j < 5 ∧ word.get j = letter

instance (word : Word) (letter : Char) : Decidable (word.has letter) := by
  unfold Word.has; infer_instance

/-- The slot is non-empty and its word contains the letter. -/
def slot_has (letter : Char) : Option Word → Bool
  | none => false
  | some word => decide (word.has letter)

/-- Builds a word from a string of five characters (the empty slot otherwise). -/
def slot_of (s : String) : Option Word :=
  if h : s.toList.length = 5 ∧ ∀ c ∈ s.toList, c ≠ Char.ofNat 0 then
    some ⟨s.toList, h.1, h.2⟩
  else none

/-- The inner loop of `score_word`,
`for (j ...; j < 5; j++) if (word[j] == i + 97) { ...; break; }`, started at
index `j` with `n` iterations left, where `code` is the integer `i + 97`. -/
def scan_code (word : Word) (code : Nat) (j : Nat) : Nat → Bool
  | 0 => false
  | n + 1 => if (word.get j).toNat = code then true else scan_code word code (j + 1) n

/-- The function `score_word` of `search_util.c` in exact arithmetic;
`letter_scores` is the array of 26 integers. This is the value computed
whenever the sum stays in the range of `int`, as it does for the tables that
`get_guess` builds; `score_word_int` is the function with the 32-bit sum. -/
def score_word (word : Word) (letter_scores : List Int) : Int :=
  (List.range 26).foldl (fun score i =>
    if scan_code word (i + 97) 0 5 then score + letter_scores.getD i 0 else score) 0

/-- The first loop of `get_guess`: `letter_scores[i] = score_letter('a' + i, ...)`. -/
def letter_scores_of (vocabulary : Vocabulary) : List Int :=
  (List.range 26).map (fun i => score_letter (Char.ofNat (97 + i)) vocabulary)

/-- One iteration of the second loop of `get_guess` on the pair
`(best_guess, best_score)`. -/
def guess_step (letter_scores : List Int) (best : Option Word × Int)
    (slot : Option Word) : Option Word × Int :=
  match slot with
  | none => best
  | some word =>
    let score := score_word word letter_scores
    if score > best.2 then (some word, score) else best

/-- The function `get_guess` of `search_util.c`; `none` is the `NULL` result. -/
def get_guess (vocabulary : Vocabulary) : Option Word :=
  (vocabulary.foldl (guess_step (letter_scores_of vocabulary)) (none, 0)).1

/-- The call `strncmp(s1, s2, 5) == 0` continued from index `i` with `n`
characters left to compare. -/
def strncmp_eq (s1 s2 : Word) (i : Nat) : Nat → Bool
  | 0 => true
  | n + 1 =>
    if s1.get i ≠ s2.get i then false
    else if s1.get i = Char.ofNat 0 then true
    else strncmp_eq s1 s2 (i + 1) n

/-- The second loop nest of `score_guess`. -/
def mark_yellow (secret guess : Word) (result : List Char) : List Char :=
  (List.range 5).foldl (fun r i =>
    (List.range 5).foldl (fun r j =>
      if guess.get i = secret.get j then r.set i 'y' else r) r) result

/-- The third loop of `score_guess`. -/
def mark_green (secret guess : Word) (result : List Char) : List Char :=
  (List.range 5).foldl (fun r i =>
    if guess.get i = secret.get i then r.set i 'g' else r) result

/-- The function `score_guess` of `solver.c`: the five characters written to
`result` and the returned flag. -/
def score_guess (secret guess : Word) : List Char × Bool :=
  let result := List.replicate 5 'x'
  let result := mark_yellow secret guess result
  let result := mark_green secret guess result
  (result, strncmp_eq secret guess 0 5)

/-- One iteration of the slot loop shared by the three filters: a `NULL` slot is
skipped; a word for which the removal condition holds is freed, its slot set to
`NULL` and `filtered` incremented. -/
def filter_step (remove : Word → Bool) (st : Vocabulary × Nat) (i : Nat) :
    Vocabulary × Nat :=
  match st.1.getD i none with
  | none => st
  | some word => if remove word then (st.1.set i none, st.2 + 1) else st

/-- The loop `for (size_t i = 0; i < num_words; i++)` of the three filters,
returning the vocabulary and `filtered`. -/
def filter_loop (remove : Word → Bool) (vocabulary : Vocabulary) : Vocabulary × Nat :=
  (List.range vocabulary.length).foldl (filter_step remove) (vocabulary, 0)

/-- The function `filter_vocabulary_gray` of `search_util.c`. -/
def filter_vocabulary_gray (letter : Char) (vocabulary : Vocabulary) : Vocabulary × Nat :=
  filter_loop (fun word => scan_letter word letter 0 5) vocabulary

/-- The inner loop of `filter_vocabulary_yellow` on the pair `(in_word, at_pos)`. -/
def yellow_flags (word : Word) (letter : Char) (position : Nat) : Bool × Bool :=
  (List.range 5).foldl (fun (flags : Bool × Bool) j =>
    if word.get j = letter then (true, if j = position then true else flags.2)
    else flags) (false, false)

/-- The function `filter_vocabulary_yellow` of `search_util.c`. -/
def filter_vocabulary_yellow (letter : Char) (position : Nat) (vocabulary : Vocabulary) :
    Vocabulary × Nat :=
  filter_loop (fun word =>
    let flags := yellow_flags word letter position
    !flags.1 || flags.2) vocabulary

/-- The function `filter_vocabulary_green` of `search_util.c`. -/
def filter_vocabulary_green (letter : Char) (position : Nat) (vocabulary : Vocabulary) :
    Vocabulary × Nat :=
  filter_loop (fun word => decide (word.get position ≠ letter)) vocabulary

/-- The loop over `j` in the gray branch of `main`, computing
`non_gray_elsewhere` for position `i`. -/
def non_gray_elsewhere (guess : Word) (result : List Char) (i : Nat) : Bool :=
  (List.range 5).foldl (fun flag j =>
    if j ≠ i ∧ guess.get j = guess.get i ∧ result.getD i (Char.ofNat 0) ≠ 'x' then true
    else flag) false

/-- The body of the filtering loop of `main` for position `i`. -/
def filter_position (guess : Word) (result : List Char) (vocabulary : Vocabulary)
    (i : Nat) : Vocabulary :=
  if result.getD i (Char.ofNat 0) = 'x' then
    if !non_gray_elsewhere guess result i then
      (filter_vocabulary_gray (guess.get i) vocabulary).1
    else vocabulary
  else if result.getD i (Char.ofNat 0) = 'y' then
    (filter_vocabulary_yellow (guess.get i) i vocabulary).1
  else if result.getD i (Char.ofNat 0) = 'g' then
    (filter_vocabulary_green (guess.get i) i vocabulary).1
  else vocabulary

/-- The filtering loop `for (int i = 0; i < 5; i++)` of `main`. -/
def filter_round (guess : Word) (result : List Char) (vocabulary : Vocabulary) :
    Vocabulary :=
  (List.range 5).foldl (filter_position guess result) vocabulary

/-- How the loop of `main` ends: with `success` set, or by the `break` taken when
`get_guess` returns `NULL`; both carry `num_guesses`. -/
inductive Outcome where
  | solved (num_guesses : Nat)
  | exhausted (num_guesses : Nat)
deriving DecidableEq

/-- The `do ... while (!success)` loop of `main` when a secret is given, run for
at most `fuel` iterations; `none` means the fuel ran out. -/
def solve (secret : Word) : Nat → Vocabulary → Nat → Option Outcome
  | 0, _, _ => none
  | fuel + 1, vocabulary, num_guesses =>
    match get_guess vocabulary with
    | none => some (Outcome.exhausted num_guesses)
    | some guess =>
      let r := score_guess secret guess
      if r.2 then some (Outcome.solved (num_guesses + 1))
      else solve secret fuel (filter_round guess r.1 vocabulary) (num_guesses + 1)

/-- The ten words of `demo_functions.c`. -/
def demo_words : Vocabulary :=
  [slot_of "stalk", slot_of "scrap", slot_of "shear", slot_of "batch", slot_of "motif",
   slot_of "tense", slot_of "ultra", slot_of "vital", slot_of "ether", slot_of "nadir"]

/-- Every character of the word is one of the lowercase letters `a .. z`. -/
def Word.lowercase (word : Word) : Prop :=
  ∀ c ∈ word.chars, 97 ≤ c.toNat ∧ c.toNat ≤ 122

instance (word : Word) : Decidable word.lowercase := by
  unfold Word.lowercase; infer_instance

/-- The entry `letter_scores[c - 'a']` of the table for the letter `c`. -/
def score_of (letter_scores : List Int) (c : Char) : Int :=
  letter_scores.getD (c.toNat - 97) 0

/-- The word `eerie`. -/
def eerie : Word := ⟨"eerie".toList, by decide, by decide⟩

/-- A non-empty slot holds a word of lowercase letters. -/
def slot_lowercase : Option Word → Prop
  | none => True
  | some word => word.lowercase

instance (slot : Option Word) : Decidable (slot_lowercase slot) := by
  cases slot <;> unfold slot_lowercase <;> infer_instance

/-- Every word of the vocabulary consists of lowercase letters. -/
def vocabulary_lowercase (vocabulary : Vocabulary) : Prop :=
  ∀ slot ∈ vocabulary, slot_lowercase slot

instance (vocabulary : Vocabulary) : Decidable (vocabulary_lowercase vocabulary) := by
  unfold vocabulary_lowercase; infer_instance

/-- The feedback symbol of position `i`: `g` when the guess and the secret agree
at `i`, else `y` when the letter of the guess occurs in the secret, else `x`. -/
def feedback_at (secret guess : Word) (i : Nat) : Char :=
  if guess.get i = secret.get i then 'g'
  else if secret.has (guess.get i) then 'y'
  else 'x'

/-- The word `nadir`. -/
def nadir : Word := ⟨"nadir".toList, by decide, by decide⟩

/-- The word `ultra`. -/
def ultra : Word := ⟨"ultra".toList, by decide, by decide⟩

/-- The word `stalk`. -/
def stalk : Word := ⟨"stalk".toList, by decide, by decide⟩

/-- What the slot loop of a filter leaves in a slot. -/
def cleared (remove : Word → Bool) : Option Word → Option Word
  | none => none
  | some word => if remove word then none else some word

/-- The slot holds a word that the slot loop of a filter removes. -/
def removed_slot (remove : Word → Bool) : Option Word → Bool
  | none => false
  | some word => remove word

/-- The word `tense`. -/
def tense : Word := ⟨"tense".toList, by decide, by decide⟩

/-- Whether the body of the filtering loop of `main` for position `i` removes
the word: the removal condition of the filter that the body calls. -/
def position_removes (guess : Word) (result : List Char) (i : Nat) (word : Word) : Bool :=
  if result.getD i (Char.ofNat 0) = 'x' then
    if !non_gray_elsewhere guess result i then scan_letter word (guess.get i) 0 5
    else false
  else if result.getD i (Char.ofNat 0) = 'y' then
    (!(yellow_flags word (guess.get i) i).1 || (yellow_flags word (guess.get i) i).2)
  else if result.getD i (Char.ofNat 0) = 'g' then
    decide (word.get i ≠ guess.get i)
  else false

/-- The number of non-empty slots. -/
def live (vocabulary : Vocabulary) : Nat :=
  vocabulary.countP (fun slot => slot.isSome)

/-- The word `scrap`. -/
def scrap : Word := ⟨"scrap".toList, by decide, by decide⟩

/-- The word `ether`. -/
def ether : Word := ⟨"ether".toList, by decide, by decide⟩

/-- The word `shear`. -/
def shear : Word := ⟨"shear".toList, by decide, by decide⟩

/-- The word `tithe`. -/
def tithe : Word := ⟨"tithe".toList, by decide, by decide⟩

/-- A feedback string: exactly five symbols, each `g`, `y` or `x`; this is what
the validation loop of `main` accepts. -/
def is_feedback (result : List Char) : Prop :=
  result.length = 5 ∧ ∀ c ∈ result, c = 'g' ∨ c = 'y' ∨ c = 'x'

instance (result : List Char) : Decidable (is_feedback result) := by
  unfold is_feedback; infer_instance

/-- The call `strncmp(s1, s2, 5) == 0` on two strings given by their characters,
continued from index `i` with `n` characters left to compare; past its last
character a string holds the terminator. -/
def strncmp_chars (s1 s2 : List Char) (i : Nat) : Nat → Bool
  | 0 => true
  | n + 1 =>
    if s1.getD i (Char.ofNat 0) ≠ s2.getD i (Char.ofNat 0) then false
    else if s1.getD i (Char.ofNat 0) = Char.ofNat 0 then true
    else strncmp_chars s1 s2 (i + 1) n

/-- The number of guesses carried by an outcome. -/
def Outcome.num_guesses : Outcome → Nat
  | Outcome.solved n => n
  | Outcome.exhausted n => n

/-- The `do ... while (!success)` loop of `main` when no secret is given, run for
at most `fuel` iterations; `feedback n guess` is the string that the validation
loop accepts after guess number `n + 1`, and `success` is
`strncmp(result, "ggggg", 5) == 0`. -/
def solve_interactive (feedback : Nat → Word → List Char) :
    Nat → Vocabulary → Nat → Option Outcome
  | 0, _, _ => none
  | fuel + 1, vocabulary, num_guesses =>
    match get_guess vocabulary with
    | none => some (Outcome.exhausted num_guesses)
    | some guess =>
      let result := feedback num_guesses guess
      if strncmp_chars result ['g', 'g', 'g', 'g', 'g'] 0 5 then
        some (Outcome.solved (num_guesses + 1))
      else
        solve_interactive feedback fuel (filter_round guess result vocabulary)
          (num_guesses + 1)

/-- The non-gray-elsewhere condition in the words of the spec: the letter of
position `i` also stands at another position `j` of the guess that is marked
`y` or `g`. -/
def spec_non_gray_elsewhere (guess : Word) (result : List Char) (i : Nat) : Bool :=
  (List.range 5).any (fun j =>
    decide (j ≠ i ∧ guess.get j = guess.get i ∧
      (result.getD j (Char.ofNat 0) = 'y' ∨ result.getD j (Char.ofNat 0) = 'g')))

/-- The filtering of one position in the words of the spec: as `filter_position`,
but the exclude-letter rule is skipped under `spec_non_gray_elsewhere`. -/
def spec_filter_position (guess : Word) (result : List Char) (vocabulary : Vocabulary)
    (i : Nat) : Vocabulary :=
  if result.getD i (Char.ofNat 0) = 'x' then
    if !spec_non_gray_elsewhere guess result i then
      (filter_vocabulary_gray (guess.get i) vocabulary).1
    else vocabulary
  else if result.getD i (Char.ofNat 0) = 'y' then
    (filter_vocabulary_yellow (guess.get i) i vocabulary).1
  else if result.getD i (Char.ofNat 0) = 'g' then
    (filter_vocabulary_green (guess.get i) i vocabulary).1
  else vocabulary

/-- The filtering step of a round in the words of the spec. -/
def spec_filter_round (guess : Word) (result : List Char) (vocabulary : Vocabulary) :
    Vocabulary :=
  (List.range 5).foldl (spec_filter_position guess result) vocabulary

/-- One application of a filter rule: exclude-letter, relocate-letter or
pin-letter. -/
inductive Rule where
  | exclude (letter : Char)
  | relocate (letter : Char) (position : Nat)
  | pin (letter : Char) (position : Nat)

/-- The position of the rule, if it takes one, lies in `0 .. 4`. -/
def Rule.in_range : Rule → Prop
  | Rule.exclude _ => True
  | Rule.relocate _ position => position < 5
  | Rule.pin _ position => position < 5

/-- The filter function that carries out the rule. -/
def Rule.apply : Rule → Vocabulary → Vocabulary × Nat
  | Rule.exclude letter, vocabulary => filter_vocabulary_gray letter vocabulary
  | Rule.relocate letter position, vocabulary =>
    filter_vocabulary_yellow letter position vocabulary
  | Rule.pin letter position, vocabulary =>
    filter_vocabulary_green letter position vocabulary

/-- The vocabulary invariant between the state before and after a filter: the
slot count is the same, every slot empty before is empty after, and every slot
non-empty after holds the word it held before. -/
def shrinks (before after : Vocabulary) : Prop :=
  after.length = before.length ∧
  (∀ i, before.getD i none = none → after.getD i none = none) ∧
  (∀ (i : Nat) (w : Word), after.getD i none = some w → before.getD i none = some w)

/-- The value of an integer as a 32-bit `int`: reduced modulo `2^32` into the
range `-2^31 .. 2^31 - 1`. -/
def wrap_int (x : Int) : Int :=
  (x + 2147483648) % 4294967296 - 2147483648

/-- The integer lies in the range of a 32-bit `int`. -/
def int_range (x : Int) : Prop :=
  -2147483648 ≤ x ∧ x ≤ 2147483647

instance (x : Int) : Decidable (int_range x) := by
  unfold int_range; infer_instance

/-- The function `score_word` of `search_util.c` with the arithmetic of its
`int score`: the statement `score += letter_scores[i]` stores the sum as a
32-bit `int`. -/
def score_word_int (word : Word) (letter_scores : List Int) : Int :=
  (List.range 26).foldl (fun score i =>
    if scan_code word (i + 97) 0 5 then wrap_int (score + letter_scores.getD i 0)
    else score) 0

/-! ## Inner loops -/

theorem scan_letter_iff (word : Word) (letter : Char) (n : Nat) :
    ∀ j, scan_letter word letter j n = true ↔
      ∃ k, j ≤ k ∧ k < j + n ∧ word.get k = letter := by
  induction n with
  | zero =>
    intro j
    simp only [scan_letter]
    constructor
    · intro h; cases h
    · rintro ⟨k, h1, h2, _⟩; omega
  | succ n ih =>
    intro j
    simp only [scan_letter]
    by_cases h : word.get j = letter
    · simp only [h, if_true, true_iff]
      exact ⟨j, le_refl j, by omega, h⟩
    · rw [if_neg h, ih (j + 1)]
      constructor
      · rintro ⟨k, h1, h2, h3⟩
        exact ⟨k, by omega, by omega, h3⟩
      · rintro ⟨k, h1, h2, h3⟩
        have hk : k ≠ j := by
          rintro rfl
          exact h h3
        exact ⟨k, by omega, by omega, h3⟩

theorem scan_letter_has (word : Word) (letter : Char) :
    scan_letter word letter 0 5 = true ↔ word.has letter := by
  rw [scan_letter_iff]
  unfold Word.has
  constructor
  · rintro ⟨k, _, h2, h3⟩
    exact ⟨k, by omega, h3⟩
  · rintro ⟨k, h2, h3⟩
    exact ⟨k, Nat.zero_le k, by omega, h3⟩

theorem score_letter_fold (letter : Char) (vocabulary : Vocabulary) :
    ∀ count : Int,
      vocabulary.foldl (fun count slot =>
        match slot with
        | none => count
        | some word => if scan_letter word letter 0 5 then count + 1 else count) count
      = count + (vocabulary.countP (slot_has letter) : Nat) := by
  induction vocabulary with
  | nil => intro count; simp
  | cons slot rest ih =>
    intro count
    rw [List.foldl_cons, ih]
    cases slot with
    | none => simp [slot_has]
    | some word =>
      by_cases h : word.has letter
      · have hs := (scan_letter_has word letter).2 h
        simp [slot_has, h, hs]
        ring
      · have hs : scan_letter word letter 0 5 = false := by
          cases hb : scan_letter word letter 0 5 with
          | false => rfl
          | true => exact absurd ((scan_letter_has word letter).1 hb) h
        simp [slot_has, h, hs]

theorem mem_chars_iff (word : Word) (c : Char) :
    c ∈ word.chars ↔ ∃ j, j < 5 ∧ word.get j = c := by
  rw [List.mem_iff_getElem]
  constructor
  · rintro ⟨n, hn, h⟩
    refine ⟨n, by rw [← word.len]; exact hn, ?_⟩
    unfold Word.get
    rw [List.getD_eq_getElem _ _ hn]
    exact h
  · rintro ⟨j, hj, h⟩
    have hn : j < word.chars.length := by rw [word.len]; exact hj
    refine ⟨j, hn, ?_⟩
    unfold Word.get at h
    rw [List.getD_eq_getElem _ _ hn] at h
    exact h

theorem get_mem (word : Word) (j : Nat) (hj : j < 5) : word.get j ∈ word.chars :=
  (mem_chars_iff word _).2 ⟨j, hj, rfl⟩

theorem scan_code_iff (word : Word) (code : Nat) (n : Nat) :
    ∀ j, scan_code word code j n = true ↔
      ∃ k, j ≤ k ∧ k < j + n ∧ (word.get k).toNat = code := by
  induction n with
  | zero =>
    intro j
    simp only [scan_code]
    constructor
    · intro h; cases h
    · rintro ⟨k, h1, h2, _⟩; omega
  | succ n ih =>
    intro j
    simp only [scan_code]
    by_cases h : (word.get j).toNat = code
    · simp only [h, if_true, true_iff]
      exact ⟨j, le_refl j, by omega, h⟩
    · rw [if_neg h, ih (j + 1)]
      constructor
      · rintro ⟨k, h1, h2, h3⟩
        exact ⟨k, by omega, by omega, h3⟩
      · rintro ⟨k, h1, h2, h3⟩
        have hk : k ≠ j := by
          rintro rfl
          exact h h3
        exact ⟨k, by omega, by omega, h3⟩

theorem scan_code_mem (word : Word) (code : Nat) :
    scan_code word code 0 5 = true ↔ ∃ c, c ∈ word.chars ∧ c.toNat = code := by
  rw [scan_code_iff]
  constructor
  · rintro ⟨k, _, h2, h3⟩
    exact ⟨word.get k, get_mem word k (by omega), h3⟩
  · rintro ⟨c, hc, h⟩
    obtain ⟨j, hj, rfl⟩ := (mem_chars_iff word c).1 hc
    exact ⟨j, Nat.zero_le j, by omega, h⟩

theorem fold_cond_sum (P : Nat → Bool) (f : Nat → Int) (n : Nat) (a : Int) :
    (List.range n).foldl (fun score i => if P i then score + f i else score) a
      = a + ∑ i in Finset.range n, if P i then f i else 0 := by
  induction n with
  | zero => simp
  | succ n ih =>
    rw [List.range_succ, List.foldl_append, ih, Finset.sum_range_succ]
    simp only [List.foldl_cons, List.foldl_nil]
    split <;> ring

theorem score_word_eq_sum (word : Word) (letter_scores : List Int) :
    score_word word letter_scores
      = ∑ i in Finset.range 26,
          if scan_code word (i + 97) 0 5 then letter_scores.getD i 0 else 0 := by
  unfold score_word
  rw [fold_cond_sum (fun i => scan_code word (i + 97) 0 5)
    (fun i => letter_scores.getD i 0) 26 0]
  simp

theorem toNat_inj {c d : Char} (h : c.toNat = d.toNat) : c = d := by
  rw [← Char.ofNat_toNat c, ← Char.ofNat_toNat d, h]

theorem score_word_eq_finset (word : Word) (letter_scores : List Int)
    (hl : word.lowercase) :
    score_word word letter_scores
      = ∑ c in word.chars.toFinset, score_of letter_scores c := by
  rw [score_word_eq_sum, ← Finset.sum_filter]
  have himg : (Finset.range 26).filter (fun i => scan_code word (i + 97) 0 5 = true)
      = word.chars.toFinset.image (fun c => c.toNat - 97) := by
    ext i
    simp only [Finset.mem_filter, Finset.mem_range, Finset.mem_image, List.mem_toFinset,
      scan_code_mem]
    constructor
    · rintro ⟨_, c, hc, h⟩
      exact ⟨c, hc, by omega⟩
    · rintro ⟨c, hc, rfl⟩
      have := hl c hc
      exact ⟨by omega, c, hc, by omega⟩
  rw [himg, Finset.sum_image]
  · rfl
  · intro c hc d hd h
    have h1 := hl c (List.mem_toFinset.1 hc)
    have h2 := hl d (List.mem_toFinset.1 hd)
    exact toNat_inj (by omega)

/-- In exact arithmetic, for a word of five lowercase letters and a table of 26
entries, the sum that `score_word` forms is the sum of the table entries of the
distinct letters of the word, each distinct letter taken once. -/
theorem score_word_distinct_letters (word : Word) (letter_scores : List Int)
    (hl : word.lowercase) (h26 : letter_scores.length = 26) :
    score_word word letter_scores
      = (word.chars.dedup.map (fun c => letter_scores.getD (c.toNat - 97) 0)).sum := by
  have _ := h26
  have hd : word.chars.dedup.toFinset = word.chars.toFinset := by
    ext c
    simp
  rw [score_word_eq_finset word letter_scores hl,
    ← List.sum_toFinset _ (List.nodup_dedup word.chars), hd]
  rfl

/-- In exact arithmetic, with `letter_scores[e] = 10`, `letter_scores[r] = 3`,
`letter_scores[i] = 2`, the word `eerie` scores `10 + 3 + 2`: the letter `e`
contributes 10 once. -/
theorem score_word_distinct_letters_witness :
    eerie.lowercase ∧
    score_word eerie ((List.range 26).map (fun i =>
        if i = 4 then 10 else if i = 17 then 3 else if i = 8 then 2 else 1))
      = 10 + 3 + 2 :=
  ⟨by decide, (score_word_distinct_letters eerie _ (by decide) (by decide)).trans (by decide)⟩

theorem wrap_int_add (a b : Int) : wrap_int (wrap_int a + b) = wrap_int (a + b) := by
  unfold wrap_int
  omega

theorem wrap_int_of_range (x : Int) (h : int_range x) : wrap_int x = x := by
  unfold int_range at h
  unfold wrap_int
  omega

theorem score_word_int_fold (word : Word) (letter_scores : List Int) (n : Nat) :
    (List.range n).foldl (fun score i =>
        if scan_code word (i + 97) 0 5 then wrap_int (score + letter_scores.getD i 0)
        else score) 0
      = wrap_int ((List.range n).foldl (fun score i =>
          if scan_code word (i + 97) 0 5 then score + letter_scores.getD i 0
          else score) 0) := by
  induction n with
  | zero =>
    simp only [List.range_zero, List.foldl_nil]
    decide
  | succ n ih =>
    rw [List.range_succ, List.foldl_append, List.foldl_append, ih]
    simp only [List.foldl_cons, List.foldl_nil]
    split
    · exact wrap_int_add _ _
    · rfl

/-- The 32-bit sum of `score_word` is the exact sum reduced to a 32-bit `int`. -/
theorem score_word_int_eq_wrap (word : Word) (letter_scores : List Int) :
    score_word_int word letter_scores = wrap_int (score_word word letter_scores) := by
  unfold score_word_int score_word
  exact score_word_int_fold word letter_scores 26

/-- C2 (the claim as stated fails): for the lowercase word `stalk` and the table
of 26 entries all equal to `INT_MAX`, `score_word` returns 2147483643, which is
not the sum 10737418235 of the entries of the five distinct letters. -/
theorem score_word_int_overflow :
    stalk.lowercase ∧
    (List.replicate 26 (2147483647 : Int)).length = 26 ∧
    (∀ x ∈ List.replicate 26 (2147483647 : Int), int_range x) ∧
    score_word_int stalk (List.replicate 26 2147483647) = 2147483643 ∧
    (stalk.chars.dedup.map
        (fun c => (List.replicate 26 (2147483647 : Int)).getD (c.toNat - 97) 0)).sum
      = 10737418235 ∧
    score_word_int stalk (List.replicate 26 2147483647)
      ≠ (stalk.chars.dedup.map
          (fun c => (List.replicate 26 (2147483647 : Int)).getD (c.toNat - 97) 0)).sum := by
  refine ⟨by decide, by decide, by decide, by decide, by decide, by decide⟩

/-- C2 (amended): for a word of five lowercase letters and a table of 26 `int`
entries, whenever the sum of the table entries of the distinct letters of the
word lies in the range of `int`, `score_word` returns that sum, each distinct
letter taken once. -/
theorem score_word_int_distinct_letters (word : Word) (letter_scores : List Int)
    (hl : word.lowercase) (h26 : letter_scores.length = 26)
    (hint : ∀ x ∈ letter_scores, int_range x)
    (hsum : int_range
      ((word.chars.dedup.map (fun c => letter_scores.getD (c.toNat - 97) 0)).sum)) :
    score_word_int word letter_scores
      = (word.chars.dedup.map (fun c => letter_scores.getD (c.toNat - 97) 0)).sum := by
  have _ := hint
  rw [score_word_int_eq_wrap, score_word_distinct_letters word letter_scores hl h26]
  exact wrap_int_of_range _ hsum

/-- Witness of C2 (amended): with `letter_scores[e] = 10`, `letter_scores[r] = 3`,
`letter_scores[i] = 2` and 1 elsewhere, the word `eerie` scores `10 + 3 + 2`:
the letter `e` contributes 10 once, not 30. -/
theorem score_word_int_distinct_letters_witness :
    eerie.lowercase ∧
    (∀ x ∈ (List.range 26).map (fun i =>
        if i = 4 then (10 : Int) else if i = 17 then 3 else if i = 8 then 2 else 1),
      int_range x) ∧
    score_word_int eerie ((List.range 26).map (fun i =>
        if i = 4 then 10 else if i = 17 then 3 else if i = 8 then 2 else 1))
      = 10 + 3 + 2 :=
  ⟨by decide, by decide,
    (score_word_int_distinct_letters eerie _ (by decide) (by decide) (by decide)
      (by decide)).trans (by decide)⟩

/-! ## `get_guess` -/

/-- The second loop of `get_guess` from the state `(b, s)`: either no word of the
list scores above `s` and the state is unchanged, or the state becomes the
first word of the highest score. -/
theorem guess_fold (ls : List Int) (l : Vocabulary) :
    ∀ (b : Option Word) (s : Int),
      ((∀ (k : Nat) (wk : Word), l[k]? = some (some wk) → score_word wk ls ≤ s) ∧
        l.foldl (guess_step ls) (b, s) = (b, s)) ∨
      ∃ (i : Nat) (w : Word), l[i]? = some (some w) ∧ s < score_word w ls ∧
        l.foldl (guess_step ls) (b, s) = (some w, score_word w ls) ∧
        (∀ (k : Nat) (wk : Word), l[k]? = some (some wk) →
          score_word wk ls ≤ score_word w ls) ∧
        (∀ (k : Nat) (wk : Word), k < i → l[k]? = some (some wk) →
          score_word wk ls < score_word w ls) := by
  induction l with
  | nil =>
    intro b s
    left
    simp
  | cons slot rest ih =>
    intro b s
    cases slot with
    | none =>
      rcases ih b s with ⟨h1, h2⟩ | ⟨i, w, h1, h2, h3, h4, h5⟩
      · left
        refine ⟨?_, by simpa [guess_step] using h2⟩
        intro k wk hk
        cases k with
        | zero => simp at hk
        | succ k => exact h1 k wk (by simpa using hk)
      · right
        refine ⟨i + 1, w, by simpa using h1, h2, by simpa [guess_step] using h3, ?_, ?_⟩
        · intro k wk hk
          cases k with
          | zero => simp at hk
          | succ k => exact h4 k wk (by simpa using hk)
        · intro k wk hlt hk
          cases k with
          | zero => simp at hk
          | succ k => exact h5 k wk (by omega) (by simpa using hk)
    | some w0 =>
      by_cases hgt : score_word w0 ls > s
      · have hstep : guess_step ls (b, s) (some w0) = (some w0, score_word w0 ls) := by
          simp [guess_step, hgt]
        right
        rcases ih (some w0) (score_word w0 ls) with ⟨h1, h2⟩ | ⟨i, w, h1, h2, h3, h4, h5⟩
        · refine ⟨0, w0, by simp, hgt, ?_, ?_, ?_⟩
          · rw [List.foldl_cons, hstep, h2]
          · intro k wk hk
            cases k with
            | zero =>
              simp at hk
              rw [hk]
            | succ k => exact h1 k wk (by simpa using hk)
          · intro k wk hlt _
            omega
        · refine ⟨i + 1, w, by simpa using h1, by omega, ?_, ?_, ?_⟩
          · rw [List.foldl_cons, hstep, h3]
          · intro k wk hk
            cases k with
            | zero =>
              simp at hk
              rw [← hk]
              omega
            | succ k => exact h4 k wk (by simpa using hk)
          · intro k wk hlt hk
            cases k with
            | zero =>
              simp at hk
              rw [← hk]
              exact h2
            | succ k => exact h5 k wk (by omega) (by simpa using hk)
      · have hstep : guess_step ls (b, s) (some w0) = (b, s) := by
          simp [guess_step, hgt]
        rcases ih b s with ⟨h1, h2⟩ | ⟨i, w, h1, h2, h3, h4, h5⟩
        · left
          refine ⟨?_, by rw [List.foldl_cons, hstep, h2]⟩
          intro k wk hk
          cases k with
          | zero =>
            simp at hk
            rw [← hk]
            omega
          | succ k => exact h1 k wk (by simpa using hk)
        · right
          refine ⟨i + 1, w, by simpa using h1, h2, ?_, ?_, ?_⟩
          · rw [List.foldl_cons, hstep, h3]
          · intro k wk hk
            cases k with
            | zero =>
              simp at hk
              rw [← hk]
              omega
            | succ k => exact h4 k wk (by simpa using hk)
          · intro k wk hlt hk
            cases k with
            | zero =>
              simp at hk
              rw [← hk]
              omega
            | succ k => exact h5 k wk (by omega) (by simpa using hk)

theorem score_letter_eq (letter : Char) (vocabulary : Vocabulary) :
    score_letter letter vocabulary = (vocabulary.countP (slot_has letter) : Nat) := by
  unfold score_letter
  rw [score_letter_fold]
  simp

theorem score_of_letter_scores (vocabulary : Vocabulary) (c : Char)
    (h : 97 ≤ c.toNat ∧ c.toNat ≤ 122) :
    score_of (letter_scores_of vocabulary) c = score_letter c vocabulary := by
  unfold score_of letter_scores_of
  have hlt : c.toNat - 97 < ((List.range 26).map
      (fun i => score_letter (Char.ofNat (97 + i)) vocabulary)).length := by
    simp
    omega
  rw [List.getD_eq_getElem _ _ hlt]
  simp only [List.getElem_map, List.getElem_range]
  have : 97 + (c.toNat - 97) = c.toNat := by omega
  rw [this, Char.ofNat_toNat]

/-- A lowercase word standing in the vocabulary has a positive score. -/
theorem score_word_pos (vocabulary : Vocabulary) (word : Word)
    (hmem : some word ∈ vocabulary) (hl : word.lowercase) :
    0 < score_word word (letter_scores_of vocabulary) := by
  rw [score_word_eq_finset word _ hl]
  have hc : word.get 0 ∈ word.chars := get_mem word 0 (by decide)
  have hterm : ∀ c ∈ word.chars.toFinset, 0 < score_of (letter_scores_of vocabulary) c := by
    intro c hc
    have hc1 := List.mem_toFinset.1 hc
    rw [score_of_letter_scores vocabulary c (hl c hc1), score_letter_eq]
    have : 0 < vocabulary.countP (slot_has c) := by
      rw [List.countP_pos_iff]
      refine ⟨some word, hmem, ?_⟩
      simp only [slot_has, decide_eq_true_eq]
      exact (mem_chars_iff word c).1 hc1
    exact_mod_cast this
  exact Finset.sum_pos hterm ⟨word.get 0, List.mem_toFinset.2 hc⟩

theorem letter_scores_unique (vocabulary : Vocabulary) (scores : List Int)
    (h26 : scores.length = 26)
    (hs : ∀ i, i < 26 → scores.getD i 0 = score_letter (Char.ofNat (97 + i)) vocabulary) :
    scores = letter_scores_of vocabulary := by
  apply List.ext_getElem
  · simp [letter_scores_of, h26]
  · intro i h1 h2
    have hi : i < 26 := by rw [← h26]; exact h1
    have := hs i hi
    rw [List.getD_eq_getElem _ _ h1] at this
    rw [this]
    simp [letter_scores_of]

theorem letter_scores_of_getD (vocabulary : Vocabulary) (i : Nat) (hi : i < 26) :
    (letter_scores_of vocabulary).getD i 0
      = score_letter (Char.ofNat (97 + i)) vocabulary := by
  have hlt : i < (letter_scores_of vocabulary).length := by
    simp [letter_scores_of, hi]
  rw [List.getD_eq_getElem _ _ hlt]
  simp [letter_scores_of]

theorem slot_score_pos (vocabulary : Vocabulary) (hl : vocabulary_lowercase vocabulary)
    (k : Nat) (wk : Word) (hk : vocabulary[k]? = some (some wk)) :
    0 < score_word wk (letter_scores_of vocabulary) := by
  have hmem : some wk ∈ vocabulary := List.mem_iff_getElem?.2 ⟨k, hk⟩
  exact score_word_pos vocabulary wk hmem (hl (some wk) hmem)

/-- A loop that stores `a` at the fixed index `i` whenever `P j` holds stores it
once if some `j` below `n` satisfies `P`. -/
theorem fold_set_fixed {α : Type} (P : Nat → Prop) [DecidablePred P] (i : Nat) (a : α)
    (n : Nat) (r : List α) :
    (List.range n).foldl (fun r j => if P j then r.set i a else r) r
      = if ∃ j, j < n ∧ P j then r.set i a else r := by
  induction n with
  | zero => simp
  | succ n ih =>
    rw [List.range_succ, List.foldl_append, ih]
    simp only [List.foldl_cons, List.foldl_nil]
    by_cases hn : P n
    · have hex : ∃ j, j < n + 1 ∧ P j := ⟨n, by omega, hn⟩
      rw [if_pos hn, if_pos hex]
      split
      · rw [List.set_set]
      · rfl
    · rw [if_neg hn]
      have hiff : (∃ j, j < n + 1 ∧ P j) ↔ ∃ j, j < n ∧ P j := by
        constructor
        · rintro ⟨j, hj, hp⟩
          have hne : j ≠ n := by
            rintro rfl
            exact hn hp
          exact ⟨j, by omega, hp⟩
        · rintro ⟨j, hj, hp⟩
          exact ⟨j, by omega, hp⟩
      simp only [hiff]

/-- A loop that stores `a` at index `i` whenever `Q i` holds, read at index `k`. -/
theorem fold_set_index {α : Type} (Q : Nat → Prop) [DecidablePred Q] (a : α)
    (n : Nat) (r0 : List α) :
    ((List.range n).foldl (fun r i => if Q i then r.set i a else r) r0).length
        = r0.length ∧
    ∀ k, ((List.range n).foldl (fun r i => if Q i then r.set i a else r) r0)[k]?
        = if k < n ∧ Q k ∧ k < r0.length then some a else r0[k]? := by
  induction n with
  | zero => simp
  | succ n ih =>
    obtain ⟨ihl, ihk⟩ := ih
    rw [List.range_succ, List.foldl_append]
    simp only [List.foldl_cons, List.foldl_nil]
    by_cases hn : Q n
    · rw [if_pos hn]
      refine ⟨by rw [List.length_set, ihl], ?_⟩
      intro k
      rw [List.getElem?_set, ihl]
      by_cases hk : n = k
      · subst hk
        by_cases hlt : n < r0.length
        · simp [hn, hlt]
        · simp only [hlt, and_false, if_false, if_true]
          rw [eq_comm, List.getElem?_eq_none_iff]
          omega
      · rw [if_neg hk, ihk]
        have : (k < n + 1 ∧ Q k ∧ k < r0.length) ↔ (k < n ∧ Q k ∧ k < r0.length) := by
          constructor
          · rintro ⟨h1, h2, h3⟩
            exact ⟨by omega, h2, h3⟩
          · rintro ⟨h1, h2, h3⟩
            exact ⟨by omega, h2, h3⟩
        simp only [this]
    · rw [if_neg hn]
      refine ⟨ihl, ?_⟩
      intro k
      rw [ihk]
      have : (k < n + 1 ∧ Q k ∧ k < r0.length) ↔ (k < n ∧ Q k ∧ k < r0.length) := by
        constructor
        · rintro ⟨h1, h2, h3⟩
          have hne : k ≠ n := by
            rintro rfl
            exact hn h2
          exact ⟨by omega, h2, h3⟩
        · rintro ⟨h1, h2, h3⟩
          exact ⟨by omega, h2, h3⟩
      simp only [this]

theorem mark_yellow_eq (secret guess : Word) (result : List Char) :
    mark_yellow secret guess result
      = (List.range 5).foldl (fun r i =>
          if secret.has (guess.get i) then r.set i 'y' else r) result := by
  unfold mark_yellow
  congr 1
  funext r i
  rw [fold_set_fixed (fun j => guess.get i = secret.get j) i 'y' 5 r]
  have hiff : (∃ j, j < 5 ∧ guess.get i = secret.get j) ↔ secret.has (guess.get i) := by
    unfold Word.has
    constructor
    · rintro ⟨j, hj, h⟩
      exact ⟨j, hj, h.symm⟩
    · rintro ⟨j, hj, h⟩
      exact ⟨j, hj, h.symm⟩
  by_cases h : secret.has (guess.get i)
  · rw [if_pos h, if_pos (hiff.2 h)]
  · rw [if_neg h, if_neg (mt hiff.1 h)]

theorem score_guess_getElem? (secret guess : Word) (k : Nat) :
    (score_guess secret guess).1[k]?
      = if k < 5 then some (feedback_at secret guess k) else none := by
  unfold score_guess
  simp only
  unfold mark_green
  rw [mark_yellow_eq]
  have hy := fold_set_index (fun i => secret.has (guess.get i)) 'y' 5
    (List.replicate 5 'x')
  have hg := fold_set_index (fun i => guess.get i = secret.get i) 'g' 5
    ((List.range 5).foldl (fun r i =>
      if secret.has (guess.get i) then r.set i 'y' else r)
      (List.replicate 5 'x'))
  rw [hg.2 k, hy.1, hy.2 k]
  unfold feedback_at
  by_cases hk : k < 5
  · have hx : (List.replicate 5 'x')[k]? = some 'x' := by
      rw [List.getElem?_replicate]
      simp [hk]
    simp only [hk, List.length_replicate, true_and, and_true, if_true, hx]
    split
    · rfl
    · split <;> rfl
  · have hx : (List.replicate 5 'x')[k]? = none := by
      rw [List.getElem?_replicate]
      simp [hk]
    simp only [hk, false_and, if_false, hx]

theorem score_guess_length (secret guess : Word) :
    (score_guess secret guess).1.length = 5 := by
  unfold score_guess
  simp only
  unfold mark_green
  rw [mark_yellow_eq]
  rw [(fold_set_index (fun i => guess.get i = secret.get i) 'g' 5 _).1,
    (fold_set_index (fun i => secret.has (guess.get i)) 'y' 5 _).1]
  simp

/-- C5: at every position `i` in `0 .. 4` the symbol written by `score_guess`
is `g` if the guess and the secret have the same letter at `i`, otherwise `y`
if the letter of the guess at `i` occurs at some position of the secret,
otherwise `x`. -/
theorem score_guess_symbol (secret guess : Word) (i : Nat) (hi : i < 5) :
    (score_guess secret guess).1[i]? =
      some (if guess.get i = secret.get i then 'g'
        else if secret.has (guess.get i) then 'y'
        else 'x') := by
  rw [score_guess_getElem?, if_pos hi]
  rfl

/-- Witness of C5: with the secret `nadir` and the guess `ultra`, position 3
(the letter `r`, which is the last letter of the secret) is marked `y`. -/
theorem score_guess_symbol_witness :
    (3 < 5) ∧ (score_guess nadir ultra).1[3]? = some 'y' :=
  ⟨by decide, (score_guess_symbol nadir ultra 3 (by decide)).trans (by decide)⟩

theorem get_ne_nul (word : Word) (k : Nat) (hk : k < 5) : word.get k ≠ Char.ofNat 0 :=
  word.nonnul _ (get_mem word k hk)

theorem strncmp_eq_iff (s1 s2 : Word) (n : Nat) :
    ∀ i, i + n ≤ 5 →
      (strncmp_eq s1 s2 i n = true ↔ ∀ k, i ≤ k → k < i + n → s1.get k = s2.get k) := by
  induction n with
  | zero =>
    intro i _
    simp only [strncmp_eq, true_iff]
    intro k h1 h2
    omega
  | succ n ih =>
    intro i hi
    simp only [strncmp_eq]
    by_cases hne : s1.get i ≠ s2.get i
    · rw [if_pos hne]
      constructor
      · intro h
        cases h
      · intro h
        exact absurd (h i (le_refl i) (by omega)) hne
    · rw [if_neg hne, if_neg (get_ne_nul s1 i (by omega)), ih (i + 1) (by omega)]
      have heq : s1.get i = s2.get i := not_not.1 hne
      constructor
      · intro h k h1 h2
        by_cases hk : k = i
        · rw [hk]
          exact heq
        · exact h k (by omega) (by omega)
      · intro h k h1 h2
        exact h k (by omega) (by omega)

theorem word_ext (a b : Word) (h : ∀ k, k < 5 → a.get k = b.get k) : a = b := by
  have hc : a.chars = b.chars := by
    apply List.ext_getElem
    · rw [a.len, b.len]
    · intro k h1 h2
      have hk : k < 5 := by rw [← a.len]; exact h1
      have := h k hk
      unfold Word.get at this
      rw [List.getD_eq_getElem _ _ h1, List.getD_eq_getElem _ _ h2] at this
      exact this
  cases a
  cases b
  simp_all

theorem score_guess_flag (secret guess : Word) :
    (score_guess secret guess).2 = true ↔ guess = secret := by
  unfold score_guess
  simp only
  rw [strncmp_eq_iff secret guess 5 0 (by decide)]
  constructor
  · intro h
    exact word_ext guess secret (fun k hk => (h k (Nat.zero_le k) (by omega)).symm)
  · rintro rfl k _ _
    rfl

theorem score_guess_all_green (secret guess : Word) :
    (score_guess secret guess).1 = ['g', 'g', 'g', 'g', 'g'] ↔ guess = secret := by
  constructor
  · intro h
    apply word_ext
    intro k hk
    have hk1 := score_guess_getElem? secret guess k
    rw [h, if_pos hk] at hk1
    have hg : feedback_at secret guess k = 'g' := by
      interval_cases k <;> simpa using hk1.symm
    unfold feedback_at at hg
    by_contra hne
    rw [if_neg hne] at hg
    split at hg
    · exact absurd hg (by decide)
    · exact absurd hg (by decide)
  · rintro rfl
    apply List.ext_getElem?
    intro k
    rw [score_guess_getElem?]
    by_cases hk : k < 5
    · rw [if_pos hk]
      have hg : feedback_at guess guess k = 'g' := by
        unfold feedback_at
        rw [if_pos rfl]
      rw [hg]
      interval_cases k <;> rfl
    · rw [if_neg hk, eq_comm, List.getElem?_eq_none_iff]
      simp only [List.length_cons, List.length_nil]
      omega

/-- C6: `score_guess` returns true exactly when the guess equals the secret, and
this is the case exactly when the feedback written is `ggggg`; for the secret
`stalk` and the guess `stalk` the feedback is `ggggg` and the flag is true. -/
theorem score_guess_match_iff :
    (∀ secret guess : Word,
      ((score_guess secret guess).2 = true ↔ guess = secret) ∧
      (guess = secret ↔ (score_guess secret guess).1 = ['g', 'g', 'g', 'g', 'g'])) ∧
    score_guess stalk stalk = (['g', 'g', 'g', 'g', 'g'], true) := by
  refine ⟨fun secret guess => ⟨score_guess_flag secret guess,
    (score_guess_all_green secret guess).symm⟩, by decide⟩

/-! ## The three filters -/

/-- The slot loop of a filter, run over the slots `l` that follow the already
visited slots `p`. -/
theorem filter_fold_suffix (remove : Word → Bool) (l : Vocabulary) :
    ∀ (p : Vocabulary) (c : Nat),
      (List.range' p.length l.length).foldl (filter_step remove) (p ++ l, c)
        = (p ++ l.map (cleared remove), c + l.countP (removed_slot remove)) := by
  induction l with
  | nil =>
    intro p c
    simp
  | cons x rest ih =>
    intro p c
    have hget : (p ++ x :: rest).getD p.length none = x := by
      rw [List.getD_append_right _ _ _ _ (le_refl _)]
      simp
    have hset : (p ++ x :: rest).set p.length none = p ++ none :: rest := by
      rw [List.set_append_right _ _ (le_refl _)]
      simp
    have hlen : ∀ y : Option Word, p.length + 1 = (p ++ [y]).length := by
      intro y
      simp
    have happ : ∀ y : Option Word, p ++ y :: rest = (p ++ [y]) ++ rest := by
      intro y
      simp
    rw [List.length_cons, List.range'_succ, List.foldl_cons]
    cases x with
    | none =>
      have hstep : filter_step remove (p ++ none :: rest, c) p.length
          = (p ++ none :: rest, c) := by
        unfold filter_step
        simp only [hget]
      rw [hstep, happ none, hlen none, ih (p ++ [none]) c]
      simp [cleared, removed_slot]
    | some word =>
      by_cases hr : remove word = true
      · have hstep : filter_step remove (p ++ some word :: rest, c) p.length
            = (p ++ none :: rest, c + 1) := by
          unfold filter_step
          simp only [hget, hr, if_true, hset]
        rw [hstep, happ none, hlen none, ih (p ++ [none]) (c + 1)]
        simp [cleared, removed_slot, hr]
        omega
      · have hstep : filter_step remove (p ++ some word :: rest, c) p.length
            = (p ++ some word :: rest, c) := by
          unfold filter_step
          simp only [hget, hr]
          simp
        rw [hstep, happ (some word), hlen (some word), ih (p ++ [some word]) c]
        simp [cleared, removed_slot, hr]

theorem filter_loop_eq (remove : Word → Bool) (vocabulary : Vocabulary) :
    filter_loop remove vocabulary
      = (vocabulary.map (cleared remove), vocabulary.countP (removed_slot remove)) := by
  unfold filter_loop
  rw [List.range_eq_range']
  have := filter_fold_suffix remove vocabulary [] 0
  simpa using this

theorem filter_loop_getD (remove : Word → Bool) (vocabulary : Vocabulary) (i : Nat) :
    (filter_loop remove vocabulary).1.getD i none
      = cleared remove (vocabulary.getD i none) := by
  rw [filter_loop_eq]
  simp only [List.getD_eq_getElem?_getD, List.getElem?_map]
  cases vocabulary[i]? with
  | none => simp [cleared]
  | some slot => simp

theorem filter_loop_count (remove : Word → Bool) (vocabulary : Vocabulary) :
    (filter_loop remove vocabulary).2
      = (vocabulary.zip (filter_loop remove vocabulary).1).countP
          (fun s => decide (s.1 ≠ none ∧ s.2 = none)) := by
  rw [filter_loop_eq]
  simp only
  induction vocabulary with
  | nil => simp
  | cons slot rest ih =>
    rw [List.map_cons, List.zip_cons_cons, List.countP_cons, List.countP_cons, ih]
    congr 1
    cases slot with
    | none => simp [removed_slot, cleared]
    | some word =>
      by_cases hr : remove word = true
      · simp [removed_slot, cleared, hr]
      · simp [removed_slot, cleared, hr]

theorem filter_loop_length (remove : Word → Bool) (vocabulary : Vocabulary) :
    (filter_loop remove vocabulary).1.length = vocabulary.length := by
  rw [filter_loop_eq]
  simp

theorem scan_letter_false (word : Word) (letter : Char) (h : ¬ word.has letter) :
    scan_letter word letter 0 5 = false := by
  cases hb : scan_letter word letter 0 5 with
  | false => rfl
  | true => exact absurd ((scan_letter_has word letter).1 hb) h

/-- C7: after `filter_vocabulary_gray` the slot count is unchanged; a slot is
empty exactly when it was empty before or its word contained the letter; every
other slot holds the word it held before; the value returned is the number of
slots that went from non-empty to empty; and on a vocabulary none of whose
words contains the letter the function returns 0 and changes nothing. -/
theorem filter_vocabulary_gray_spec (letter : Char) (vocabulary : Vocabulary) :
    (filter_vocabulary_gray letter vocabulary).1.length = vocabulary.length ∧
    (∀ i, i < vocabulary.length →
      ((filter_vocabulary_gray letter vocabulary).1.getD i none = none ↔
        (vocabulary.getD i none = none ∨
          ∃ w, vocabulary.getD i none = some w ∧ w.has letter)) ∧
      ((filter_vocabulary_gray letter vocabulary).1.getD i none ≠ none →
        (filter_vocabulary_gray letter vocabulary).1.getD i none
          = vocabulary.getD i none)) ∧
    (filter_vocabulary_gray letter vocabulary).2
      = (vocabulary.zip (filter_vocabulary_gray letter vocabulary).1).countP
          (fun s => decide (s.1 ≠ none ∧ s.2 = none)) ∧
    ((∀ slot ∈ vocabulary, slot_has letter slot = false) →
      filter_vocabulary_gray letter vocabulary = (vocabulary, 0)) := by
  unfold filter_vocabulary_gray
  refine ⟨filter_loop_length _ _, ?_, filter_loop_count _ _, ?_⟩
  · intro i _
    rw [filter_loop_getD]
    cases vocabulary.getD i none with
    | none => simp [cleared]
    | some word =>
      by_cases h : word.has letter
      · simp [cleared, (scan_letter_has word letter).2 h, h]
      · simp [cleared, scan_letter_false word letter h, h]
  · intro hnone
    rw [filter_loop_eq]
    have hmap : vocabulary.map (cleared fun word => scan_letter word letter 0 5)
        = vocabulary := by
      conv_rhs => rw [← List.map_id vocabulary]
      apply List.map_congr_left
      intro slot hmem
      cases slot with
      | none => rfl
      | some word =>
        have h := hnone (some word) hmem
        simp only [slot_has, decide_eq_false_iff_not] at h
        simp [cleared, scan_letter_false word letter h]
    have hcount : vocabulary.countP (removed_slot fun word => scan_letter word letter 0 5)
        = 0 := by
      rw [List.countP_eq_zero]
      intro slot hmem
      cases slot with
      | none => simp [removed_slot]
      | some word =>
        have h := hnone (some word) hmem
        simp only [slot_has, decide_eq_false_iff_not] at h
        simp [removed_slot, scan_letter_false word letter h]
    rw [hmap, hcount]

/-- Witness of C7: no word of `stalk`, `motif` contains `x`, so the filter
returns 0 and leaves both slots as they were. -/
theorem filter_vocabulary_gray_spec_witness :
    (∀ slot ∈ [slot_of "stalk", slot_of "motif"], slot_has 'x' slot = false) ∧
    filter_vocabulary_gray 'x' [slot_of "stalk", slot_of "motif"]
      = ([slot_of "stalk", slot_of "motif"], 0) :=
  ⟨by decide,
    (filter_vocabulary_gray_spec 'x' [slot_of "stalk", slot_of "motif"]).2.2.2 (by decide)⟩

/-- The inner loop of `filter_vocabulary_yellow` run for `n` iterations. -/
theorem yellow_flags_fold (word : Word) (letter : Char) (position : Nat) (n : Nat) :
    (List.range n).foldl (fun (flags : Bool × Bool) j =>
      if word.get j = letter then (true, if j = position then true else flags.2)
      else flags) (false, false)
    = (decide (∃ j, j < n ∧ word.get j = letter),
       decide (position < n ∧ word.get position = letter)) := by
  induction n with
  | zero => simp
  | succ n ih =>
    rw [List.range_succ, List.foldl_append, ih]
    simp only [List.foldl_cons, List.foldl_nil]
    have h1 : (∃ j, j < n + 1 ∧ word.get j = letter)
        ↔ ((∃ j, j < n ∧ word.get j = letter) ∨ word.get n = letter) := by
      constructor
      · rintro ⟨j, hj, h⟩
        by_cases hjn : j = n
        · right
          rw [← hjn]
          exact h
        · left
          exact ⟨j, by omega, h⟩
      · rintro (⟨j, hj, h⟩ | h)
        · exact ⟨j, by omega, h⟩
        · exact ⟨n, by omega, h⟩
    have h2 : (position < n + 1 ∧ word.get position = letter)
        ↔ ((position < n ∧ word.get position = letter)
            ∨ (n = position ∧ word.get n = letter)) := by
      constructor
      · rintro ⟨hp, h⟩
        by_cases hpn : position = n
        · right
          refine ⟨hpn.symm, ?_⟩
          rw [← hpn]
          exact h
        · left
          exact ⟨by omega, h⟩
      · rintro (⟨hp, h⟩ | ⟨hp, h⟩)
        · exact ⟨by omega, h⟩
        · refine ⟨by omega, ?_⟩
          rw [← hp]
          exact h
    simp only [h1, h2]
    by_cases hn : word.get n = letter
    · by_cases hp : n = position
      · subst hp
        simp [hn]
      · simp [hn, hp]
    · simp [hn]

theorem yellow_remove_iff (word : Word) (letter : Char) (position : Nat)
    (hp : position < 5) :
    ((!(yellow_flags word letter position).1 || (yellow_flags word letter position).2)
        = false)
      ↔ (word.has letter ∧ word.get position ≠ letter) := by
  unfold yellow_flags
  rw [yellow_flags_fold]
  unfold Word.has
  simp [hp]

/-- C8: for a position in `0 .. 4`, after `filter_vocabulary_yellow` a slot that
held a word stays non-empty exactly when the word contains the letter and its
character at the position is not the letter; every other non-empty slot is
emptied, a surviving slot holds the word it held, empty slots stay empty, the
slot count is unchanged, and the value returned is the number of slots
emptied. -/
theorem filter_vocabulary_yellow_spec (letter : Char) (position : Nat)
    (hp : position < 5) (vocabulary : Vocabulary) :
    (filter_vocabulary_yellow letter position vocabulary).1.length = vocabulary.length ∧
    (∀ (i : Nat) (w : Word), i < vocabulary.length → vocabulary.getD i none = some w →
      ((filter_vocabulary_yellow letter position vocabulary).1.getD i none ≠ none ↔
        (w.has letter ∧ w.get position ≠ letter)) ∧
      ((filter_vocabulary_yellow letter position vocabulary).1.getD i none ≠ none →
        (filter_vocabulary_yellow letter position vocabulary).1.getD i none = some w)) ∧
    (∀ i, vocabulary.getD i none = none →
      (filter_vocabulary_yellow letter position vocabulary).1.getD i none = none) ∧
    (filter_vocabulary_yellow letter position vocabulary).2
      = (vocabulary.zip (filter_vocabulary_yellow letter position vocabulary).1).countP
          (fun s => decide (s.1 ≠ none ∧ s.2 = none)) := by
  unfold filter_vocabulary_yellow
  refine ⟨filter_loop_length _ _, ?_, ?_, filter_loop_count _ _⟩
  · intro i w _ hw
    rw [filter_loop_getD, hw]
    have hiff := yellow_remove_iff w letter position hp
    by_cases hr : (!(yellow_flags w letter position).1
        || (yellow_flags w letter position).2) = true
    · have hno : ¬ (w.has letter ∧ w.get position ≠ letter) := by
        intro h
        rw [hiff.2 h] at hr
        cases hr
      simp only [cleared, hr, if_true]
      simp [hno]
    · have hf : (!(yellow_flags w letter position).1
          || (yellow_flags w letter position).2) = false := by
        simpa using hr
      have hyes := hiff.1 hf
      simp only [cleared, hf]
      simp [hyes]
  · intro i hi
    rw [filter_loop_getD, hi]
    rfl

/-- Witness of C8: with the letter `t` and position 0 on `stalk`, `tense`,
`motif`, only `tense` (which has `t` at position 0) is removed. -/
theorem filter_vocabulary_yellow_spec_witness :
    (0 < 5) ∧
    ((filter_vocabulary_yellow 't' 0
        [slot_of "stalk", slot_of "tense", slot_of "motif"]).1.getD 1 none ≠ none ↔
      (tense.has 't' ∧ tense.get 0 ≠ 't')) ∧
    filter_vocabulary_yellow 't' 0 [slot_of "stalk", slot_of "tense", slot_of "motif"]
      = ([slot_of "stalk", none, slot_of "motif"], 1) :=
  ⟨by decide,
    ((filter_vocabulary_yellow_spec 't' 0 (by decide)
      [slot_of "stalk", slot_of "tense", slot_of "motif"]).2.1 1 tense
        (by decide) (by decide)).1,
    by decide⟩

/-- C9: for a position in `0 .. 4`, `filter_vocabulary_green` empties the
non-empty slots whose word has at the position a character different from the
letter, leaves every other slot as it was, keeps the slot count, and returns
the number of slots emptied. -/
theorem filter_vocabulary_green_spec (letter : Char) (position : Nat)
    (hp : position < 5) (vocabulary : Vocabulary) :
    (filter_vocabulary_green letter position vocabulary).1.length = vocabulary.length ∧
    (∀ i, i < vocabulary.length →
      (∀ w, vocabulary.getD i none = some w → w.get position ≠ letter →
        (filter_vocabulary_green letter position vocabulary).1.getD i none = none) ∧
      ((∀ w, vocabulary.getD i none = some w → w.get position = letter) →
        (filter_vocabulary_green letter position vocabulary).1.getD i none
          = vocabulary.getD i none)) ∧
    (filter_vocabulary_green letter position vocabulary).2
      = (vocabulary.zip (filter_vocabulary_green letter position vocabulary).1).countP
          (fun s => decide (s.1 ≠ none ∧ s.2 = none)) := by
  have _ := hp
  unfold filter_vocabulary_green
  refine ⟨filter_loop_length _ _, ?_, filter_loop_count _ _⟩
  intro i _
  rw [filter_loop_getD]
  constructor
  · intro w hw hne
    rw [hw]
    simp [cleared, hne]
  · intro h
    cases hs : vocabulary.getD i none with
    | none => rfl
    | some w => simp [cleared, h w hs]

/-- Witness of C9: with the letter `s` and position 0 on `stalk`, `motif`,
`scrap`, only the slot of `motif` is emptied and 1 is returned. -/
theorem filter_vocabulary_green_spec_witness :
    (0 < 5) ∧
    (filter_vocabulary_green 's' 0
        [slot_of "stalk", slot_of "motif", slot_of "scrap"]).1.length = 3 ∧
    filter_vocabulary_green 's' 0 [slot_of "stalk", slot_of "motif", slot_of "scrap"]
      = ([slot_of "stalk", none, slot_of "scrap"], 1) :=
  ⟨by decide,
    (filter_vocabulary_green_spec 's' 0 (by decide)
      [slot_of "stalk", slot_of "motif", slot_of "scrap"]).1,
    by decide⟩

/-! ## The filtering step and the solve loop -/

theorem map_cleared_false (vocabulary : Vocabulary) :
    vocabulary.map (cleared (fun _ => false)) = vocabulary := by
  conv_rhs => rw [← List.map_id vocabulary]
  apply List.map_congr_left
  intro slot _
  cases slot <;> simp [cleared]

theorem filter_position_eq (guess : Word) (result : List Char) (vocabulary : Vocabulary)
    (i : Nat) :
    filter_position guess result vocabulary i
      = vocabulary.map (cleared (position_removes guess result i)) := by
  unfold filter_position
  by_cases hx : result.getD i (Char.ofNat 0) = 'x'
  · rw [if_pos hx]
    by_cases hn : (!non_gray_elsewhere guess result i) = true
    · rw [if_pos hn]
      unfold filter_vocabulary_gray
      rw [filter_loop_eq]
      have : position_removes guess result i
          = fun word => scan_letter word (guess.get i) 0 5 := by
        funext word
        simp only [position_removes, hx, hn, if_true]
      rw [this]
    · rw [if_neg hn]
      have : position_removes guess result i = fun _ => false := by
        funext word
        simp only [position_removes, hx, hn, if_true]
        rfl
      rw [this, map_cleared_false]
  · rw [if_neg hx]
    by_cases hy : result.getD i (Char.ofNat 0) = 'y'
    · rw [if_pos hy]
      unfold filter_vocabulary_yellow
      rw [filter_loop_eq]
      have : position_removes guess result i
          = fun word => (!(yellow_flags word (guess.get i) i).1
              || (yellow_flags word (guess.get i) i).2) := by
        funext word
        unfold position_removes
        rw [if_neg hx, if_pos hy]
      rw [this]
    · rw [if_neg hy]
      by_cases hg : result.getD i (Char.ofNat 0) = 'g'
      · rw [if_pos hg]
        unfold filter_vocabulary_green
        rw [filter_loop_eq]
        have : position_removes guess result i
            = fun word => decide (word.get i ≠ guess.get i) := by
          funext word
          unfold position_removes
          rw [if_neg hx, if_neg hy, if_pos hg]
        rw [this]
      · rw [if_neg hg]
        have : position_removes guess result i = fun _ => false := by
          funext word
          simp only [position_removes, hx, hy, hg, if_false]
        rw [this, map_cleared_false]

theorem cleared_cleared (r1 r2 : Word → Bool) (slot : Option Word) :
    cleared r2 (cleared r1 slot) = cleared (fun w => r1 w || r2 w) slot := by
  cases slot with
  | none => rfl
  | some word =>
    by_cases h1 : r1 word = true
    · simp [cleared, h1]
    · by_cases h2 : r2 word = true
      · simp [cleared, h1, h2]
      · simp [cleared, h1, h2]

theorem filter_positions_eq (guess : Word) (result : List Char) (ps : List Nat) :
    ∀ vocabulary : Vocabulary,
      ps.foldl (filter_position guess result) vocabulary
        = vocabulary.map
            (cleared (fun w => ps.any (fun i => position_removes guess result i w))) := by
  induction ps with
  | nil =>
    intro vocabulary
    simp only [List.foldl_nil, List.any_nil]
    rw [map_cleared_false]
  | cons i ps ih =>
    intro vocabulary
    rw [List.foldl_cons, ih, filter_position_eq, List.map_map]
    apply List.map_congr_left
    intro slot _
    simp only [Function.comp, cleared_cleared, List.any_cons]

theorem filter_round_eq (guess : Word) (result : List Char) (vocabulary : Vocabulary) :
    filter_round guess result vocabulary
      = vocabulary.map (cleared (fun w =>
          (List.range 5).any (fun i => position_removes guess result i w))) := by
  unfold filter_round
  exact filter_positions_eq guess result (List.range 5) vocabulary

theorem isSome_cleared_le (remove : Word → Bool) (slot : Option Word) :
    (if (cleared remove slot).isSome = true then 1 else 0)
      ≤ (if slot.isSome = true then 1 else 0) := by
  cases slot with
  | none => simp [cleared]
  | some word =>
    by_cases hr : remove word = true
    · simp [cleared, hr]
    · simp [cleared, hr]

theorem live_map_cleared_le (remove : Word → Bool) (vocabulary : Vocabulary) :
    live (vocabulary.map (cleared remove)) ≤ live vocabulary := by
  unfold live
  induction vocabulary with
  | nil => simp
  | cons slot rest ih =>
    rw [List.map_cons, List.countP_cons, List.countP_cons]
    have := isSome_cleared_le remove slot
    omega

theorem live_map_cleared_lt (remove : Word → Bool) (vocabulary : Vocabulary)
    (word : Word) (hmem : some word ∈ vocabulary) (hr : remove word = true) :
    live (vocabulary.map (cleared remove)) < live vocabulary := by
  induction vocabulary with
  | nil => simp at hmem
  | cons slot rest ih =>
    have hle := live_map_cleared_le remove rest
    have hslot := isSome_cleared_le remove slot
    unfold live at hle ih ⊢
    rw [List.map_cons, List.countP_cons, List.countP_cons]
    rcases List.mem_cons.1 hmem with h | h
    · have h1 : (if (cleared remove slot).isSome = true then 1 else 0) = 0 := by
        rw [← h]
        simp [cleared, hr]
      have h2 : (if slot.isSome = true then 1 else 0) = 1 := by
        rw [← h]
        simp
      omega
    · have := ih h
      omega

theorem mem_map_cleared (remove : Word → Bool) (vocabulary : Vocabulary) (word : Word) :
    some word ∈ vocabulary.map (cleared remove)
      ↔ (some word ∈ vocabulary ∧ remove word = false) := by
  rw [List.mem_map]
  constructor
  · rintro ⟨slot, hmem, h⟩
    cases slot with
    | none => simp [cleared] at h
    | some w0 =>
      by_cases hr : remove w0 = true
      · simp [cleared, hr] at h
      · simp only [cleared, hr] at h
        simp only [Bool.false_eq_true, if_false, Option.some.injEq] at h
        subst h
        exact ⟨hmem, by simpa using hr⟩
  · rintro ⟨hmem, hr⟩
    exact ⟨some word, hmem, by simp [cleared, hr]⟩

theorem live_le_length (vocabulary : Vocabulary) : live vocabulary ≤ vocabulary.length := by
  unfold live
  exact List.countP_le_length _

theorem live_pos (vocabulary : Vocabulary) (word : Word) (hmem : some word ∈ vocabulary) :
    0 < live vocabulary := by
  unfold live
  rw [List.countP_pos_iff]
  exact ⟨some word, hmem, rfl⟩

theorem lowercase_map_cleared (remove : Word → Bool) (vocabulary : Vocabulary)
    (hl : vocabulary_lowercase vocabulary) :
    vocabulary_lowercase (vocabulary.map (cleared remove)) := by
  intro slot hmem
  cases slot with
  | none => trivial
  | some word => exact hl (some word) ((mem_map_cleared remove vocabulary word).1 hmem).1

theorem score_guess_getD (secret guess : Word) (i : Nat) (hi : i < 5) :
    (score_guess secret guess).1.getD i (Char.ofNat 0) = feedback_at secret guess i := by
  rw [List.getD_eq_getElem?_getD, score_guess_getElem?, if_pos hi]
  rfl

theorem non_gray_elsewhere_false (guess : Word) (result : List Char) (i : Nat)
    (hx : result.getD i (Char.ofNat 0) = 'x') :
    non_gray_elsewhere guess result i = false := by
  unfold non_gray_elsewhere
  have hf : (fun (flag : Bool) (j : Nat) =>
      if j ≠ i ∧ guess.get j = guess.get i ∧ result.getD i (Char.ofNat 0) ≠ 'x' then true
      else flag) = fun flag _ => flag := by
    funext flag j
    rw [if_neg]
    rintro ⟨_, _, h⟩
    exact h hx
  rw [hf]
  generalize List.range 5 = l
  induction l with
  | nil => rfl
  | cons j l ih => simp [ih]

/-- The filtering step on the feedback of `score_guess` never removes the
secret. -/
theorem secret_not_removed (secret guess : Word) (i : Nat) (hi : i < 5) :
    position_removes guess (score_guess secret guess).1 i secret = false := by
  unfold position_removes
  rw [score_guess_getD secret guess i hi]
  unfold feedback_at
  by_cases hg : guess.get i = secret.get i
  · rw [if_pos hg, if_neg (by decide), if_neg (by decide), if_pos rfl]
    simp [hg]
  · rw [if_neg hg]
    by_cases hy : secret.has (guess.get i)
    · rw [if_pos hy, if_neg (by decide), if_pos rfl]
      exact (yellow_remove_iff secret (guess.get i) i hi).2 ⟨hy, fun h => hg h.symm⟩
    · rw [if_neg hy, if_pos rfl]
      rw [scan_letter_false secret (guess.get i) hy]
      simp

/-- The filtering step on the feedback of `score_guess` removes a guess that is
not the secret. -/
theorem guess_removed (secret guess : Word) (hne : guess ≠ secret) :
    ∃ i, i < 5 ∧ position_removes guess (score_guess secret guess).1 i guess = true := by
  have hex : ∃ i, i < 5 ∧ guess.get i ≠ secret.get i := by
    by_contra hall
    apply hne
    apply word_ext
    intro k hk
    by_contra hk2
    exact hall ⟨k, hk, hk2⟩
  obtain ⟨i, hi, hg⟩ := hex
  refine ⟨i, hi, ?_⟩
  have hfb := score_guess_getD secret guess i hi
  have hhas : guess.has (guess.get i) := ⟨i, hi, rfl⟩
  unfold feedback_at at hfb
  rw [if_neg hg] at hfb
  by_cases hy : secret.has (guess.get i)
  · rw [if_pos hy] at hfb
    unfold position_removes
    rw [hfb, if_neg (by decide), if_pos rfl]
    cases hb : (!(yellow_flags guess (guess.get i) i).1
        || (yellow_flags guess (guess.get i) i).2) with
    | true => rfl
    | false =>
      have := (yellow_remove_iff guess (guess.get i) i hi).1 hb
      exact absurd rfl this.2
  · rw [if_neg hy] at hfb
    have hn := non_gray_elsewhere_false guess (score_guess secret guess).1 i hfb
    unfold position_removes
    rw [hfb, if_pos rfl, hn]
    simp only [Bool.not_false, if_true]
    exact (scan_letter_has guess (guess.get i)).2 hhas

theorem get_guess_mem (vocabulary : Vocabulary) (guess : Word)
    (h : get_guess vocabulary = some guess) : some guess ∈ vocabulary := by
  rcases guess_fold (letter_scores_of vocabulary) vocabulary none 0 with
    ⟨_, h2⟩ | ⟨i, w, h1, _, h3, _, _⟩
  · unfold get_guess at h
    rw [h2] at h
    cases h
  · unfold get_guess at h
    rw [h3] at h
    simp only [Option.some.injEq] at h
    subst h
    exact List.mem_iff_getElem?.2 ⟨i, h1⟩

theorem get_guess_some (vocabulary : Vocabulary) (hl : vocabulary_lowercase vocabulary)
    (word : Word) (hmem : some word ∈ vocabulary) :
    ∃ guess, get_guess vocabulary = some guess := by
  rcases guess_fold (letter_scores_of vocabulary) vocabulary none 0 with
    ⟨h1, _⟩ | ⟨i, w, _, _, h3, _, _⟩
  · exfalso
    obtain ⟨k, hk⟩ := List.mem_iff_getElem?.1 hmem
    have := slot_score_pos vocabulary hl k word hk
    have := h1 k word hk
    omega
  · refine ⟨w, ?_⟩
    unfold get_guess
    rw [h3]

/-- With the secret in a vocabulary of lowercase words and at least as much fuel
as non-empty slots, the loop of `main` ends with `success` set after at most as
many further guesses as there are non-empty slots. -/
theorem solve_from (secret : Word) :
    ∀ (fuel : Nat) (vocabulary : Vocabulary) (num_guesses : Nat),
      vocabulary_lowercase vocabulary → some secret ∈ vocabulary →
      live vocabulary ≤ fuel →
      ∃ n, num_guesses + 1 ≤ n ∧ n ≤ num_guesses + live vocabulary ∧
        solve secret fuel vocabulary num_guesses = some (Outcome.solved n) := by
  intro fuel
  induction fuel with
  | zero =>
    intro vocabulary num_guesses _ hs hfuel
    have := live_pos vocabulary secret hs
    omega
  | succ fuel ih =>
    intro vocabulary num_guesses hl hs hfuel
    have hpos := live_pos vocabulary secret hs
    obtain ⟨guess, hguess⟩ := get_guess_some vocabulary hl secret hs
    have hgmem := get_guess_mem vocabulary guess hguess
    unfold solve
    simp only [hguess]
    by_cases hflag : (score_guess secret guess).2 = true
    · rw [if_pos hflag]
      exact ⟨num_guesses + 1, le_refl _, by omega, rfl⟩
    · rw [if_neg hflag]
      have hne : guess ≠ secret := fun h => hflag ((score_guess_flag secret guess).2 h)
      obtain ⟨i, hi, hrem⟩ := guess_removed secret guess hne
      have hany : (List.range 5).any
          (fun i => position_removes guess (score_guess secret guess).1 i guess) = true := by
        rw [List.any_eq_true]
        exact ⟨i, List.mem_range.2 hi, hrem⟩
      have hkeep : (List.range 5).any
          (fun i => position_removes guess (score_guess secret guess).1 i secret) = false := by
        rw [List.any_eq_false]
        intro k hk
        rw [secret_not_removed secret guess k (List.mem_range.1 hk)]
        simp
      have hlt : live (filter_round guess (score_guess secret guess).1 vocabulary)
          < live vocabulary := by
        rw [filter_round_eq]
        exact live_map_cleared_lt _ vocabulary guess hgmem hany
      have hl2 : vocabulary_lowercase
          (filter_round guess (score_guess secret guess).1 vocabulary) := by
        rw [filter_round_eq]
        exact lowercase_map_cleared _ vocabulary hl
      have hs2 : some secret ∈ filter_round guess (score_guess secret guess).1 vocabulary := by
        rw [filter_round_eq, mem_map_cleared]
        exact ⟨hs, hkeep⟩
      obtain ⟨n, h1, h2, h3⟩ := ih (filter_round guess (score_guess secret guess).1 vocabulary)
        (num_guesses + 1) hl2 hs2 (by omega)
      exact ⟨n, by omega, by omega, h3⟩

theorem solve_more_fuel (secret : Word) :
    ∀ (fuel : Nat) (vocabulary : Vocabulary) (num_guesses : Nat) (out : Outcome),
      solve secret fuel vocabulary num_guesses = some out →
      ∀ k, solve secret (fuel + k) vocabulary num_guesses = some out := by
  intro fuel
  induction fuel with
  | zero =>
    intro vocabulary num_guesses out h
    simp [solve] at h
  | succ fuel ih =>
    intro vocabulary num_guesses out h k
    have hk : fuel + 1 + k = (fuel + k) + 1 := by omega
    rw [hk]
    unfold solve at h ⊢
    cases hg : get_guess vocabulary with
    | none =>
      rw [hg] at h
      exact h
    | some guess =>
      rw [hg] at h
      simp only at h ⊢
      by_cases hflag : (score_guess secret guess).2 = true
      · rw [if_pos hflag] at h ⊢
        exact h
      · rw [if_neg hflag] at h ⊢
        exact ih _ _ out h k

/-- C11 (the code at the failing input): on the vocabulary `ether`, `tithe`,
`shear` the first guess is `ether`; with the feedback `yxyxg` the filtering
step of `main` applies the exclude-letter rule for the second `e` and empties
the slot of `shear`, the loop then runs out of words, while the filtering
step in the words of the spec keeps `shear`. -/
theorem filter_round_gray_duplicate :
    get_guess [some ether, some tithe, some shear] = some ether ∧
    filter_round ether ['y', 'x', 'y', 'x', 'g'] [some ether, some tithe, some shear]
      = [none, none, none] ∧
    spec_filter_round ether ['y', 'x', 'y', 'x', 'g'] [some ether, some tithe, some shear]
      = [none, none, some shear] ∧
    solve_interactive (fun _ _ => ['y', 'x', 'y', 'x', 'g']) 2
        [some ether, some tithe, some shear] 0
      = some (Outcome.exhausted 1) := by
  refine ⟨by decide, by decide, by decide, by decide⟩

/-! ## Invariant and commutation of the filters -/

/-- The slot loop of a filter keeps the slot count, keeps empty slots empty and
keeps the word of every slot that is non-empty afterwards. -/
theorem filter_loop_shrinks (remove : Word → Bool) (vocabulary : Vocabulary) :
    shrinks vocabulary (filter_loop remove vocabulary).1 := by
  refine ⟨filter_loop_length remove vocabulary, ?_, ?_⟩
  · intro i hi
    rw [filter_loop_getD, hi]
    rfl
  · intro i w hw
    rw [filter_loop_getD] at hw
    cases hs : vocabulary.getD i none with
    | none =>
      rw [hs] at hw
      simp [cleared] at hw
    | some w0 =>
      rw [hs] at hw
      by_cases hr : remove w0 = true
      · simp [cleared, hr] at hw
      · simp only [cleared, hr] at hw
        simpa using hw

/-- C12: each of `filter_vocabulary_gray`, `filter_vocabulary_yellow` and
`filter_vocabulary_green`, for every argument, leaves the number of slots
unchanged, leaves every empty slot empty, and leaves in every slot that is
non-empty afterwards the word it held before. -/
theorem filters_preserve_invariant (letter : Char) (position : Nat)
    (vocabulary : Vocabulary) :
    shrinks vocabulary (filter_vocabulary_gray letter vocabulary).1 ∧
    shrinks vocabulary (filter_vocabulary_yellow letter position vocabulary).1 ∧
    shrinks vocabulary (filter_vocabulary_green letter position vocabulary).1 :=
  ⟨filter_loop_shrinks _ vocabulary, filter_loop_shrinks _ vocabulary,
    filter_loop_shrinks _ vocabulary⟩

theorem rule_apply_map (rule : Rule) :
    ∃ remove : Word → Bool, ∀ vocabulary : Vocabulary,
      (rule.apply vocabulary).1 = vocabulary.map (cleared remove) := by
  cases rule with
  | exclude letter =>
    exact ⟨fun word => scan_letter word letter 0 5, fun vocabulary => by
      simp only [Rule.apply, filter_vocabulary_gray, filter_loop_eq]⟩
  | relocate letter position =>
    exact ⟨fun word => (!(yellow_flags word letter position).1
        || (yellow_flags word letter position).2), fun vocabulary => by
      simp only [Rule.apply, filter_vocabulary_yellow, filter_loop_eq]⟩
  | pin letter position =>
    exact ⟨fun word => decide (word.get position ≠ letter), fun vocabulary => by
      simp only [Rule.apply, filter_vocabulary_green, filter_loop_eq]⟩

theorem map_cleared_comm (r1 r2 : Word → Bool) (vocabulary : Vocabulary) :
    (vocabulary.map (cleared r1)).map (cleared r2)
      = (vocabulary.map (cleared r2)).map (cleared r1) := by
  rw [List.map_map, List.map_map]
  apply List.map_congr_left
  intro slot _
  simp only [Function.comp, cleared_cleared]
  congr 1
  funext w
  exact Bool.or_comm _ _

/-- C13: any two rule applications, each an exclude-letter, relocate-letter or
pin-letter rule with a position in `0 .. 4`, give the same final vocabulary in
either order; the count that a rule returns can depend on the order. -/
theorem rules_commute :
    (∀ (a b : Rule) (vocabulary : Vocabulary), a.in_range → b.in_range →
      (b.apply (a.apply vocabulary).1).1 = (a.apply (b.apply vocabulary).1).1) ∧
    (∃ (a b : Rule) (vocabulary : Vocabulary),
      (a.apply vocabulary).2 ≠ (a.apply (b.apply vocabulary).1).2) := by
  constructor
  · intro a b vocabulary _ _
    obtain ⟨ra, ha⟩ := rule_apply_map a
    obtain ⟨rb, hb⟩ := rule_apply_map b
    rw [ha vocabulary, hb vocabulary, ha, hb]
    exact map_cleared_comm ra rb vocabulary
  · exact ⟨Rule.exclude 's', Rule.exclude 't', [some stalk], by decide⟩

/-- Witness of C13: excluding `s` and pinning `t` at position 1 on `stalk`,
`tense`, `scrap` commute. -/
theorem rules_commute_witness :
    (Rule.exclude 's').in_range ∧ (Rule.pin 't' 1).in_range ∧
    ((Rule.pin 't' 1).apply ((Rule.exclude 's').apply
        [some stalk, some tense, some scrap]).1).1
      = ((Rule.exclude 's').apply ((Rule.pin 't' 1).apply
        [some stalk, some tense, some scrap]).1).1 :=
  ⟨trivial, (show 1 < 5 by decide),
    rules_commute.1 (Rule.exclude 's') (Rule.pin 't' 1)
      [some stalk, some tense, some scrap] trivial (show 1 < 5 by decide)⟩

/-- C14 (the claim as stated fails): the relocate-letter rule with the letter `a`
and position 1 on `stalk`, `scrap`, `nadir` does not remove `scrap` and does
not return 2. -/
theorem filter_vocabulary_yellow_example_refuted :
    filter_vocabulary_yellow 'a' 1 [some stalk, some scrap, some nadir]
      ≠ ([some stalk, none, none], 2) := by
  decide

/-- C14 (amended): the relocate-letter rule with the letter `a` and position 1
on `stalk`, `scrap`, `nadir` removes `nadir` only, keeps `stalk` and `scrap`
(whose `a` stands at positions 2 and 3), and returns 1. -/
theorem filter_vocabulary_yellow_example :
    filter_vocabulary_yellow 'a' 1 [some stalk, some scrap, some nadir]
      = ([some stalk, some scrap, none], 1) := by
  decide

/-! ## Duplicate letters, positions out of range, and the `scrap` example -/

theorem has_of_get_eq (secret guess : Word) (i : Nat) (hi : i < 5)
    (h : guess.get i = secret.get i) : secret.has (guess.get i) :=
  ⟨i, hi, h.symm⟩

/-- The symbol of position `i` is `x` exactly when the letter of the guess at `i`
does not occur in the secret. -/
theorem feedback_x_iff (secret guess : Word) (i : Nat) (hi : i < 5) :
    feedback_at secret guess i = 'x' ↔ ¬ secret.has (guess.get i) := by
  unfold feedback_at
  by_cases hg : guess.get i = secret.get i
  · rw [if_pos hg]
    have := has_of_get_eq secret guess i hi hg
    constructor
    · intro h
      exact absurd h (by decide)
    · intro h
      exact absurd this h
  · rw [if_neg hg]
    by_cases hy : secret.has (guess.get i)
    · rw [if_pos hy]
      constructor
      · intro h
        exact absurd h (by decide)
      · intro h
        exact absurd hy h
    · rw [if_neg hy]
      exact ⟨fun _ => hy, fun _ => rfl⟩

theorem feedback_cases (secret guess : Word) (i : Nat) :
    feedback_at secret guess i = 'g' ∨ feedback_at secret guess i = 'y'
      ∨ feedback_at secret guess i = 'x' := by
  unfold feedback_at
  split
  · exact Or.inl rfl
  · split
    · exact Or.inr (Or.inl rfl)
    · exact Or.inr (Or.inr rfl)

theorem score_guess_getElem?_some (secret guess : Word) (i : Nat) (hi : i < 5) (c : Char) :
    (score_guess secret guess).1[i]? = some c ↔ feedback_at secret guess i = c := by
  rw [score_guess_getElem?, if_pos hi]
  simp

/-- C15: when the guess has the same letter at positions `i` and `j`,
`score_guess` marks `i` with `x` exactly when it marks `j` with `x`; when that
letter occurs in the secret, both positions are marked `y` or `g`. -/
theorem score_guess_same_letter (secret guess : Word) (i j : Nat) (hi : i < 5)
    (hj : j < 5) (h : guess.get i = guess.get j) :
    ((score_guess secret guess).1[i]? = some 'x' ↔
      (score_guess secret guess).1[j]? = some 'x') ∧
    (secret.has (guess.get i) →
      ((score_guess secret guess).1[i]? = some 'y' ∨
        (score_guess secret guess).1[i]? = some 'g') ∧
      ((score_guess secret guess).1[j]? = some 'y' ∨
        (score_guess secret guess).1[j]? = some 'g')) := by
  simp only [score_guess_getElem?_some secret guess i hi,
    score_guess_getElem?_some secret guess j hj]
  have hxi := feedback_x_iff secret guess i hi
  have hxj := feedback_x_iff secret guess j hj
  rw [h] at hxi
  refine ⟨by rw [hxi, hxj], ?_⟩
  intro hhas
  rw [h] at hhas
  have hni : feedback_at secret guess i ≠ 'x' := fun hx => hxi.1 hx hhas
  have hnj : feedback_at secret guess j ≠ 'x' := fun hx => hxj.1 hx hhas
  constructor
  · rcases feedback_cases secret guess i with hc | hc | hc
    · exact Or.inr hc
    · exact Or.inl hc
    · exact absurd hc hni
  · rcases feedback_cases secret guess j with hc | hc | hc
    · exact Or.inr hc
    · exact Or.inl hc
    · exact absurd hc hnj

/-- Witness of C15: the guess `eerie` has `e` at positions 0 and 1, and the
secret `tense` contains `e`: position 0 is marked `y` and position 1 `g`. -/
theorem score_guess_same_letter_witness :
    (0 < 5) ∧ (1 < 5) ∧ eerie.get 0 = eerie.get 1 ∧ tense.has (eerie.get 0) ∧
    ((score_guess tense eerie).1[0]? = some 'y' ∨
      (score_guess tense eerie).1[0]? = some 'g') ∧
    ((score_guess tense eerie).1[1]? = some 'y' ∨
      (score_guess tense eerie).1[1]? = some 'g') :=
  ⟨by decide, by decide, by decide, by decide,
    (score_guess_same_letter tense eerie 0 1 (by decide) (by decide) (by decide)).2
      (by decide)⟩

theorem yellow_remove_out_of_range (word : Word) (letter : Char) (position : Nat)
    (hp : 5 ≤ position) :
    ((!(yellow_flags word letter position).1 || (yellow_flags word letter position).2)
        = false)
      ↔ word.has letter := by
  unfold yellow_flags
  rw [yellow_flags_fold]
  unfold Word.has
  have hlt : ¬ position < 5 := by omega
  simp [hlt]

/-- C16 (the claim as stated fails): called with position 7,
`filter_vocabulary_yellow` returns the count 1 and a vocabulary with one slot
emptied; called with position 5, `filter_vocabulary_green` returns the count 2
and a vocabulary with both slots emptied. Neither signals an error. -/
theorem filter_out_of_range_example :
    filter_vocabulary_yellow 'a' 7 [some stalk, some tense] = ([some stalk, none], 1) ∧
    filter_vocabulary_green 's' 5 [some stalk, some tense] = ([none, none], 2) := by
  refine ⟨by decide, by decide⟩

/-- C16 (amended): called with a position above 4, `filter_vocabulary_yellow`
returns normally: it keeps the slot count, leaves a word in its slot exactly
when the word contains the letter, and returns the number of slots emptied.
Called with position 5, where every word holds the terminator, and a letter
other than NUL, `filter_vocabulary_green` returns normally: every slot is
empty afterwards and the number of slots emptied is returned. -/
theorem filter_out_of_range_returns (letter : Char) (position : Nat)
    (hp : 5 ≤ position) (vocabulary : Vocabulary) :
    ((filter_vocabulary_yellow letter position vocabulary).1.length = vocabulary.length ∧
      (∀ (i : Nat) (w : Word), vocabulary.getD i none = some w →
        (filter_vocabulary_yellow letter position vocabulary).1.getD i none
          = if w.has letter then some w else none) ∧
      (filter_vocabulary_yellow letter position vocabulary).2
        = (vocabulary.zip (filter_vocabulary_yellow letter position vocabulary).1).countP
            (fun s => decide (s.1 ≠ none ∧ s.2 = none))) ∧
    (letter ≠ Char.ofNat 0 →
      (filter_vocabulary_green letter 5 vocabulary).1.length = vocabulary.length ∧
      (∀ i, (filter_vocabulary_green letter 5 vocabulary).1.getD i none = none) ∧
      (filter_vocabulary_green letter 5 vocabulary).2
        = (vocabulary.zip (filter_vocabulary_green letter 5 vocabulary).1).countP
            (fun s => decide (s.1 ≠ none ∧ s.2 = none))) := by
  constructor
  · unfold filter_vocabulary_yellow
    refine ⟨filter_loop_length _ _, ?_, filter_loop_count _ _⟩
    intro i w hw
    rw [filter_loop_getD, hw]
    have hiff := yellow_remove_out_of_range w letter position hp
    by_cases hhas : w.has letter
    · rw [if_pos hhas]
      simp only [cleared, hiff.2 hhas]
      simp
    · rw [if_neg hhas]
      have ht : (!(yellow_flags w letter position).1
          || (yellow_flags w letter position).2) = true := by
        cases hb : (!(yellow_flags w letter position).1
            || (yellow_flags w letter position).2) with
        | true => rfl
        | false => exact absurd (hiff.1 hb) hhas
      simp only [cleared, ht, if_true]
  · intro hnul
    unfold filter_vocabulary_green
    refine ⟨filter_loop_length _ _, ?_, filter_loop_count _ _⟩
    intro i
    rw [filter_loop_getD]
    cases hs : vocabulary.getD i none with
    | none => rfl
    | some w =>
      have hget : w.get 5 = Char.ofNat 0 := by
        unfold Word.get
        rw [List.getD_eq_default]
        rw [w.len]
      have hne : w.get 5 ≠ letter := by
        rw [hget]
        exact fun h => hnul h.symm
      simp [cleared, hne]

/-- Witness of C16 (amended): position 7 for the relocate-letter rule and position
5 for the pin-letter rule on `stalk`, `tense`. -/
theorem filter_out_of_range_returns_witness :
    (5 ≤ 7) ∧ ('s' ≠ Char.ofNat 0) ∧
    (filter_vocabulary_yellow 'a' 7 [some stalk, some tense]).1.length = 2 ∧
    (∀ i, (filter_vocabulary_green 's' 5 [some stalk, some tense]).1.getD i none = none) :=
  ⟨by decide, by decide,
    (filter_out_of_range_returns 'a' 7 (by decide) [some stalk, some tense]).1.1,
    ((filter_out_of_range_returns 's' 5 (by decide) [some stalk, some tense]).2
      (by decide)).2.1⟩

/-- C17 (the claim as stated fails): for the secret `stalk` and the guess `scrap`
the feedback is not `gxyxx`; position 2 holds `r`, which is not in the
secret. -/
theorem score_guess_scrap_refuted :
    (score_guess stalk scrap).1 ≠ ['g', 'x', 'y', 'x', 'x'] ∧
    (score_guess stalk scrap).1[2]? ≠ some 'y' := by
  refine ⟨by decide, by decide⟩

/-- C17 (amended): for the secret `stalk` and the guess `scrap` the symbols are
`g` at position 0, `x` at positions 1 and 2, `y` at position 3 (the letter `a`)
and `x` at position 4: the feedback is `gxxyx`, and the flag is false. -/
theorem score_guess_scrap :
    score_guess stalk scrap = (['g', 'x', 'x', 'y', 'x'], false) := by
  decide

/-! ## The filtering step against the evaluator -/

theorem map_cleared_getD (remove : Word → Bool) (vocabulary : Vocabulary) (i : Nat) :
    (vocabulary.map (cleared remove)).getD i none
      = cleared remove (vocabulary.getD i none) := by
  simp only [List.getD_eq_getElem?_getD, List.getElem?_map]
  cases vocabulary[i]? with
  | none => simp [cleared]
  | some slot => simp

theorem is_feedback_getD (result : List Char) (hf : is_feedback result) (i : Nat)
    (hi : i < 5) :
    result.getD i (Char.ofNat 0) = 'g' ∨ result.getD i (Char.ofNat 0) = 'y'
      ∨ result.getD i (Char.ofNat 0) = 'x' := by
  have hlt : i < result.length := by rw [hf.1]; exact hi
  rw [List.getD_eq_getElem _ _ hlt]
  exact hf.2 _ (List.getElem_mem hlt)

/-- At a position marked `g`, `y` or `x`, the filtering of `main` keeps a word
exactly when `score_guess`, with the word as the secret, gives that mark. -/
theorem position_keeps_iff (guess word : Word) (result : List Char) (i : Nat)
    (hi : i < 5)
    (hsym : result.getD i (Char.ofNat 0) = 'g' ∨ result.getD i (Char.ofNat 0) = 'y'
      ∨ result.getD i (Char.ofNat 0) = 'x') :
    position_removes guess result i word = false
      ↔ feedback_at word guess i = result.getD i (Char.ofNat 0) := by
  rcases hsym with hs | hs | hs
  · rw [hs]
    unfold position_removes
    rw [hs, if_neg (by decide), if_neg (by decide), if_pos rfl]
    unfold feedback_at
    by_cases hg : guess.get i = word.get i
    · rw [if_pos hg]
      simp [hg]
    · rw [if_neg hg]
      have hg2 : ¬ word.get i = guess.get i := fun h => hg h.symm
      simp only [ne_eq, hg2, not_false_eq_true, decide_True, Bool.true_eq_false, false_iff]
      split
      · decide
      · decide
  · rw [hs]
    unfold position_removes
    rw [hs, if_neg (by decide), if_pos rfl, yellow_remove_iff word (guess.get i) i hi]
    unfold feedback_at
    by_cases hg : guess.get i = word.get i
    · rw [if_pos hg]
      constructor
      · intro h
        exact absurd hg.symm h.2
      · intro h
        exact absurd h (by decide)
    · rw [if_neg hg]
      have hg2 : word.get i ≠ guess.get i := fun h => hg h.symm
      by_cases hy : word.has (guess.get i)
      · rw [if_pos hy]
        exact ⟨fun _ => rfl, fun _ => ⟨hy, hg2⟩⟩
      · rw [if_neg hy]
        constructor
        · intro h
          exact absurd h.1 hy
        · intro h
          exact absurd h (by decide)
  · rw [hs, feedback_x_iff word guess i hi]
    unfold position_removes
    rw [hs, if_pos rfl, non_gray_elsewhere_false guess result i hs]
    simp only [Bool.not_false, if_true]
    constructor
    · intro h hhas
      rw [(scan_letter_has word (guess.get i)).2 hhas] at h
      cases h
    · intro h
      exact scan_letter_false word (guess.get i) h

theorem round_keeps_iff (guess word : Word) (result : List Char)
    (hf : is_feedback result) :
    (List.range 5).any (fun i => position_removes guess result i word) = false
      ↔ ∀ i, i < 5 → feedback_at word guess i = result.getD i (Char.ofNat 0) := by
  rw [List.any_eq_false]
  constructor
  · intro h i hi
    have := h i (List.mem_range.2 hi)
    exact (position_keeps_iff guess word result i hi (is_feedback_getD result hf i hi)).1
      (by simpa using this)
  · intro h i hi
    have hi5 := List.mem_range.1 hi
    rw [(position_keeps_iff guess word result i hi5
      (is_feedback_getD result hf i hi5)).2 (h i hi5)]
    simp

theorem score_guess_eq_iff (secret guess : Word) (result : List Char)
    (hlen : result.length = 5) :
    (score_guess secret guess).1 = result
      ↔ ∀ i, i < 5 → feedback_at secret guess i = result.getD i (Char.ofNat 0) := by
  constructor
  · intro h i hi
    rw [← h, score_guess_getD secret guess i hi]
  · intro h
    apply List.ext_getElem?
    intro k
    rw [score_guess_getElem?]
    by_cases hk : k < 5
    · have hlt : k < result.length := by rw [hlen]; exact hk
      have hk2 := h k hk
      rw [List.getD_eq_getElem _ _ hlt] at hk2
      rw [if_pos hk, hk2, List.getElem?_eq_getElem hlt]
    · rw [if_neg hk, eq_comm, List.getElem?_eq_none_iff]
      omega

/-- C19: for a feedback string of five symbols `g`, `y`, `x`, after the
filtering step of `main` a slot is non-empty exactly when it held a word before
and `score_guess`, with that word as the secret, produces exactly the feedback
string; such a slot still holds its word, and the slot count is unchanged. -/
theorem filter_round_consistent (vocabulary : Vocabulary) (guess : Word)
    (result : List Char) (hf : is_feedback result) :
    (filter_round guess result vocabulary).length = vocabulary.length ∧
    ∀ i, ((filter_round guess result vocabulary).getD i none ≠ none ↔
        ∃ w, vocabulary.getD i none = some w ∧ (score_guess w guess).1 = result) ∧
      ((filter_round guess result vocabulary).getD i none ≠ none →
        (filter_round guess result vocabulary).getD i none = vocabulary.getD i none) := by
  rw [filter_round_eq]
  refine ⟨by simp, ?_⟩
  intro i
  rw [map_cleared_getD]
  cases hs : vocabulary.getD i none with
  | none => simp [cleared]
  | some w =>
    have hiff := (round_keeps_iff guess w result hf).trans
      (score_guess_eq_iff w guess result hf.1).symm
    by_cases hc : (score_guess w guess).1 = result
    · have := hiff.2 hc
      simp only [cleared, this]
      simp [hc]
    · have hr : (List.range 5).any (fun i => position_removes guess result i w) = true := by
        cases hb : (List.range 5).any (fun i => position_removes guess result i w) with
        | true => rfl
        | false => exact absurd (hiff.1 hb) hc
      simp only [cleared, hr, if_true]
      simp [hc]

/-- Witness of C19: with the guess `ether` and the feedback `yxyxg` on `ether`,
`tithe`, `shear`, no slot stays non-empty, and `score_guess` gives another
feedback for each of the three words as the secret. -/
theorem filter_round_consistent_witness :
    is_feedback ['y', 'x', 'y', 'x', 'g'] ∧
    ((filter_round ether ['y', 'x', 'y', 'x', 'g']
        [some ether, some tithe, some shear]).getD 2 none ≠ none ↔
      ∃ w, [some ether, some tithe, some shear].getD 2 none = some w ∧
        (score_guess w ether).1 = ['y', 'x', 'y', 'x', 'g']) ∧
    (score_guess shear ether).1 = ['y', 'x', 'y', 'y', 'g'] :=
  ⟨by decide,
    ((filter_round_consistent [some ether, some tithe, some shear] ether
      ['y', 'x', 'y', 'x', 'g'] (by decide)).2 2).1,
    by decide⟩

/-! ## The duplicate-letter exception in self-play -/

/-- On the feedback of `score_guess`, a position marked `x` has no other position
with the same letter marked `y` or `g`. -/
theorem spec_non_gray_elsewhere_false (secret guess : Word) (i : Nat) (hi : i < 5)
    (hx : (score_guess secret guess).1.getD i (Char.ofNat 0) = 'x') :
    spec_non_gray_elsewhere guess (score_guess secret guess).1 i = false := by
  unfold spec_non_gray_elsewhere
  rw [List.any_eq_false]
  intro j hj
  have hj5 := List.mem_range.1 hj
  rw [score_guess_getD secret guess i hi] at hx
  have hno := (feedback_x_iff secret guess i hi).1 hx
  simp only [decide_eq_true_eq]
  rintro ⟨_, hsame, hmark⟩
  rw [← hsame] at hno
  have hxj := (feedback_x_iff secret guess j hj5).2 hno
  rw [score_guess_getD secret guess j hj5, hxj] at hmark
  rcases hmark with h | h
  · exact absurd h (by decide)
  · exact absurd h (by decide)

theorem filter_position_eq_spec (secret guess : Word) (vocabulary : Vocabulary)
    (i : Nat) (hi : i < 5) :
    filter_position guess (score_guess secret guess).1 vocabulary i
      = spec_filter_position guess (score_guess secret guess).1 vocabulary i := by
  unfold filter_position spec_filter_position
  by_cases hx : (score_guess secret guess).1.getD i (Char.ofNat 0) = 'x'
  · rw [if_pos hx, if_pos hx, non_gray_elsewhere_false guess _ i hx,
      spec_non_gray_elsewhere_false secret guess i hi hx]
  · rw [if_neg hx, if_neg hx]

theorem foldl_positions_congr (f g : Vocabulary → Nat → Vocabulary) (l : List Nat)
    (h : ∀ i, i ∈ l → ∀ vocabulary, f vocabulary i = g vocabulary i) :
    ∀ vocabulary, l.foldl f vocabulary = l.foldl g vocabulary := by
  induction l with
  | nil =>
    intro vocabulary
    rfl
  | cons i l ih =>
    intro vocabulary
    rw [List.foldl_cons, List.foldl_cons, h i (List.mem_cons_self i l) vocabulary]
    exact ih (fun k hk => h k (List.mem_cons_of_mem i hk)) _

/-- C20: on the feedback that `score_guess` produces for a secret and a guess,
the filtering step of `main`, which applies the exclude-letter rule at every
position marked `x`, gives the same vocabulary as the filtering step that
skips the rule at an `x` position whose letter stands at another position
marked `y` or `g`. -/
theorem filter_round_eq_spec_in_self_play (secret guess : Word)
    (vocabulary : Vocabulary) :
    filter_round guess (score_guess secret guess).1 vocabulary
      = spec_filter_round guess (score_guess secret guess).1 vocabulary := by
  unfold filter_round spec_filter_round
  apply foldl_positions_congr
  intro i hi v
  exact filter_position_eq_spec secret guess v i (List.mem_range.1 hi)

/-! ## Progress of the solve loop -/

theorem strncmp_chars_false (result : List Char) (n : Nat) :
    ∀ i, i + n ≤ 5 → strncmp_chars result ['g', 'g', 'g', 'g', 'g'] i n = false →
      ∃ k, k < 5 ∧ result.getD k (Char.ofNat 0) ≠ 'g' := by
  induction n with
  | zero =>
    intro i _ h
    simp [strncmp_chars] at h
  | succ n ih =>
    intro i hi h
    have hg : ['g', 'g', 'g', 'g', 'g'].getD i (Char.ofNat 0) = 'g' := by
      have : i < 5 := by omega
      interval_cases i <;> rfl
    by_cases hne : result.getD i (Char.ofNat 0) = 'g'
    · unfold strncmp_chars at h
      rw [hg, hne, if_neg (by simp), if_neg (by decide)] at h
      exact ih (i + 1) (by omega) h
    · exact ⟨i, by omega, hne⟩

/-- A feedback string with a mark other than `g` makes the filtering step of
`main` remove the guess. -/
theorem guess_removed_by_feedback (guess : Word) (result : List Char)
    (hf : is_feedback result) (k : Nat) (hk : k < 5)
    (hne : result.getD k (Char.ofNat 0) ≠ 'g') :
    (List.range 5).any (fun i => position_removes guess result i guess) = true := by
  rw [List.any_eq_true]
  refine ⟨k, List.mem_range.2 hk, ?_⟩
  have hhas : guess.has (guess.get k) := ⟨k, hk, rfl⟩
  rcases is_feedback_getD result hf k hk with hs | hs | hs
  · exact absurd hs hne
  · unfold position_removes
    rw [hs, if_neg (by decide), if_pos rfl]
    cases hb : (!(yellow_flags guess (guess.get k) k).1
        || (yellow_flags guess (guess.get k) k).2) with
    | true => rfl
    | false =>
      have := (yellow_remove_iff guess (guess.get k) k hk).1 hb
      exact absurd rfl this.2
  · unfold position_removes
    rw [hs, if_pos rfl, non_gray_elsewhere_false guess result k hs]
    simp only [Bool.not_false, if_true]
    exact (scan_letter_has guess (guess.get k)).2 hhas

theorem feedback_ne_all_green (result : List Char) (hf : is_feedback result)
    (hne : result ≠ ['g', 'g', 'g', 'g', 'g']) :
    ∃ k, k < 5 ∧ result.getD k (Char.ofNat 0) ≠ 'g' := by
  by_contra hall
  apply hne
  apply List.ext_getElem
  · rw [hf.1]
    rfl
  · intro k h1 h2
    have hk : k < 5 := by rw [← hf.1]; exact h1
    have hg : result.getD k (Char.ofNat 0) = 'g' := by
      by_contra hk2
      exact hall ⟨k, hk, hk2⟩
    rw [List.getD_eq_getElem _ _ h1] at hg
    rw [hg]
    interval_cases k <;> rfl

theorem solve_interactive_from (feedback : Nat → Word → List Char)
    (hfb : ∀ n g, is_feedback (feedback n g)) :
    ∀ (fuel : Nat) (vocabulary : Vocabulary) (num_guesses : Nat),
      live vocabulary < fuel →
      ∃ out, solve_interactive feedback fuel vocabulary num_guesses = some out ∧
        out.num_guesses ≤ num_guesses + live vocabulary := by
  intro fuel
  induction fuel with
  | zero =>
    intro vocabulary num_guesses h
    omega
  | succ fuel ih =>
    intro vocabulary num_guesses hfuel
    unfold solve_interactive
    cases hg : get_guess vocabulary with
    | none => exact ⟨Outcome.exhausted num_guesses, rfl, by simp [Outcome.num_guesses]⟩
    | some guess =>
      have hgmem := get_guess_mem vocabulary guess hg
      have hpos := live_pos vocabulary guess hgmem
      simp only
      by_cases hflag : strncmp_chars (feedback num_guesses guess)
          ['g', 'g', 'g', 'g', 'g'] 0 5 = true
      · rw [if_pos hflag]
        exact ⟨Outcome.solved (num_guesses + 1), rfl, by
          simp only [Outcome.num_guesses]
          omega⟩
      · rw [if_neg hflag]
        have hfalse : strncmp_chars (feedback num_guesses guess)
            ['g', 'g', 'g', 'g', 'g'] 0 5 = false := by simpa using hflag
        obtain ⟨k, hk, hne⟩ := strncmp_chars_false _ 5 0 (by decide) hfalse
        have hany := guess_removed_by_feedback guess _ (hfb num_guesses guess) k hk hne
        have hlt : live (filter_round guess (feedback num_guesses guess) vocabulary)
            < live vocabulary := by
          rw [filter_round_eq]
          exact live_map_cleared_lt _ vocabulary guess hgmem hany
        obtain ⟨out, h1, h2⟩ := ih
          (filter_round guess (feedback num_guesses guess) vocabulary)
          (num_guesses + 1) (by omega)
        exact ⟨out, h1, by omega⟩

theorem solve_bounded_from (secret : Word) :
    ∀ (fuel : Nat) (vocabulary : Vocabulary) (num_guesses : Nat),
      live vocabulary < fuel →
      ∃ out, solve secret fuel vocabulary num_guesses = some out ∧
        out.num_guesses ≤ num_guesses + live vocabulary := by
  intro fuel
  induction fuel with
  | zero =>
    intro vocabulary num_guesses h
    omega
  | succ fuel ih =>
    intro vocabulary num_guesses hfuel
    unfold solve
    cases hg : get_guess vocabulary with
    | none => exact ⟨Outcome.exhausted num_guesses, rfl, by simp [Outcome.num_guesses]⟩
    | some guess =>
      have hgmem := get_guess_mem vocabulary guess hg
      have hpos := live_pos vocabulary guess hgmem
      simp only
      by_cases hflag : (score_guess secret guess).2 = true
      · rw [if_pos hflag]
        exact ⟨Outcome.solved (num_guesses + 1), rfl, by
          simp only [Outcome.num_guesses]
          omega⟩
      · rw [if_neg hflag]
        have hne : guess ≠ secret := fun h => hflag ((score_guess_flag secret guess).2 h)
        obtain ⟨i, hi, hrem⟩ := guess_removed secret guess hne
        have hany : (List.range 5).any
            (fun i => position_removes guess (score_guess secret guess).1 i guess)
              = true := by
          rw [List.any_eq_true]
          exact ⟨i, List.mem_range.2 hi, hrem⟩
        have hlt : live (filter_round guess (score_guess secret guess).1 vocabulary)
            < live vocabulary := by
          rw [filter_round_eq]
          exact live_map_cleared_lt _ vocabulary guess hgmem hany
        obtain ⟨out, h1, h2⟩ := ih
          (filter_round guess (score_guess secret guess).1 vocabulary)
          (num_guesses + 1) (by omega)
        exact ⟨out, h1, by omega⟩

/-- C18: for a guess returned by `get_guess` and a feedback string of five
symbols `g`, `y`, `x` other than `ggggg`, the filtering step of `main` leaves
no slot holding the guess and strictly fewer non-empty slots; hence on a
vocabulary of `N` slots the loop of `main`, with feedback supplied from
outside or computed by `score_guess`, ends solved or exhausted after at most
`N` guesses, for every amount of fuel above `N`. -/
theorem solve_loop_progress :
    (∀ (vocabulary : Vocabulary) (guess : Word) (result : List Char),
      get_guess vocabulary = some guess → is_feedback result →
      result ≠ ['g', 'g', 'g', 'g', 'g'] →
      some guess ∉ filter_round guess result vocabulary ∧
      live (filter_round guess result vocabulary) < live vocabulary) ∧
    (∀ (feedback : Nat → Word → List Char) (vocabulary : Vocabulary) (fuel : Nat),
      (∀ n g, is_feedback (feedback n g)) → vocabulary.length < fuel →
      ∃ out, solve_interactive feedback fuel vocabulary 0 = some out ∧
        out.num_guesses ≤ vocabulary.length) ∧
    (∀ (secret : Word) (vocabulary : Vocabulary) (fuel : Nat),
      vocabulary.length < fuel →
      ∃ out, solve secret fuel vocabulary 0 = some out ∧
        out.num_guesses ≤ vocabulary.length) := by
  refine ⟨?_, ?_, ?_⟩
  · intro vocabulary guess result hg hf hne
    obtain ⟨k, hk, hkne⟩ := feedback_ne_all_green result hf hne
    have hany := guess_removed_by_feedback guess result hf k hk hkne
    have hgmem := get_guess_mem vocabulary guess hg
    rw [filter_round_eq]
    refine ⟨?_, live_map_cleared_lt _ vocabulary guess hgmem hany⟩
    intro hmem
    have := ((mem_map_cleared _ vocabulary guess).1 hmem).2
    rw [hany] at this
    cases this
  · intro feedback vocabulary fuel hfb hfuel
    have hlen := live_le_length vocabulary
    obtain ⟨out, h1, h2⟩ := solve_interactive_from feedback hfb fuel vocabulary 0
      (by omega)
    exact ⟨out, h1, by omega⟩
  · intro secret vocabulary fuel hfuel
    have hlen := live_le_length vocabulary
    obtain ⟨out, h1, h2⟩ := solve_bounded_from secret fuel vocabulary 0 (by omega)
    exact ⟨out, h1, by omega⟩

/-- Witness of C18: on `ether`, `tithe`, `shear` the guess is `ether`, and the
feedback `yxyxg` leaves fewer non-empty slots, none of them holding `ether`. -/
theorem solve_loop_progress_witness :
    get_guess [some ether, some tithe, some shear] = some ether ∧
    is_feedback ['y', 'x', 'y', 'x', 'g'] ∧
    some ether ∉ filter_round ether ['y', 'x', 'y', 'x', 'g']
      [some ether, some tithe, some shear] ∧
    live (filter_round ether ['y', 'x', 'y', 'x', 'g']
        [some ether, some tithe, some shear])
      < live [some ether, some tithe, some shear] :=
  ⟨by decide, by decide,
    solve_loop_progress.1 [some ether, some tithe, some shear] ether
      ['y', 'x', 'y', 'x', 'g'] (by decide) (by decide) (by decide)⟩

end Wordle
